import Mathlib

/-!
Verification of the directory-tree tool (src/main.py).

The program builds a nested Python dictionary describing a directory
(`build_tree`), prints it as an indented tree (`display_tree`), serializes it
with the standard JSON writer (indent 4, raw unicode), and emits a pydot graph
(`add_nodes_edges_from_tree` / `generate_tree_image`).

Shallow embedding notes.

A Python value produced by the builder is one of: a dict (ordered association
list of string keys), a string, or None; `PyVal` mirrors this.

The filesystem seen by one run is modelled by `Dir`: listing a directory either
succeeds with an ordered list of entries (each entry a name together with
`some` sub-directory when `os.path.isdir` holds, `Option.none` for any other
object), raises `PermissionError`, or raises some other enumeration error.

`build_tree` mirrors `build_tree` of the source.  The source iterates over
`sorted(os.listdir(directory))`, skipping hidden names, and assigns
`tree[item]` either to the recursive result (for sub-directories) or to `None`.
Here the recursion runs over the listing in its given order producing the
name/value pairs (`buildPairs`), after which the pairs are stably sorted by
name (`sortPairs`, the same code-point comparison Python uses on `str`) and
assigned into the dict in that order (`insertAll`, Python dict assignment
semantics).  This is the same function: the per-entry computation is pure and
independent of processing order, and sorting the names first and then mapping
equals mapping first and then stably sorting by name; the reordering keeps the
recursion structural.  A raised exception carries no data that the program
inspects, so `Except Unit` stands for "some non-PermissionError exception
propagates".  `PermissionError` from `os.listdir` is caught in the source with
`tree` still empty, producing the one-entry dict.
-/

inductive PyVal : Type where
  | dict : List (String × PyVal) → PyVal
  | str : String → PyVal
  | none : PyVal

inductive Dir : Type where
  | ok : List (String × Option Dir) → Dir
  | permErr : Dir
  | otherErr : Dir

/-- Code-point comparison of char lists, as Python compares strings. -/
def strLtChars : List Char → List Char → Bool
  | [], [] => false
  | [], _ :: _ => true
  | _ :: _, [] => false
  | a :: as, b :: bs =>
      if a.toNat < b.toNat then true
      else if b.toNat < a.toNat then false
      else strLtChars as bs

/-- Python `a < b` on strings: lexicographic by code point. -/
def strLt (a b : String) : Bool := strLtChars a.data b.data

/-- Python `a <= b` on strings. -/
def strLe (a b : String) : Bool := !(strLt b a)

/-- Python `item.startswith (".")`. -/
def isHidden (name : String) : Bool :=
  match name.data with
  | c :: _ => c = '.'
  | [] => false

/-- The test `max_depth is not None and current_depth >= max_depth`. -/
def depthReached (md : Option Nat) (cd : Nat) : Bool :=
  match md with
  | some k => decide (k ≤ cd)
  | Option.none => false

def maxDepthMsg : String := "... (maximum depth reached)"

def accessDeniedLabel : String := "🚫 Access Denied"

/-- Python dict assignment `tree[k] = v`: replace in place when the key is
present, otherwise append. -/
def dictInsert : List (String × PyVal) → String → PyVal → List (String × PyVal)
  | [], k, v => [(k, v)]
  | (k₀, v₀) :: rest, k, v =>
      if k₀ = k then (k₀, v) :: rest else (k₀, v₀) :: dictInsert rest k v

/-- Stable insertion into a list sorted ascending by name. -/
def insertPair (e : String × PyVal) : List (String × PyVal) → List (String × PyVal)
  | [] => [e]
  | x :: xs => if strLe e.1 x.1 then e :: x :: xs else x :: insertPair e xs

/-- Stable ascending sort by name: `sorted` of the source applied to the
name/value pairs instead of the bare names (see the header comment). -/
def sortPairs : List (String × PyVal) → List (String × PyVal)
  | [] => []
  | x :: xs => insertPair x (sortPairs xs)

/-- Sequential Python dict assignment of each pair in order into `{}`. -/
def insertAll (pairs : List (String × PyVal)) : List (String × PyVal) :=
  pairs.foldl (fun acc p => dictInsert acc p.1 p.2) []

mutual
/-- `build_tree` of src/main.py (see the header comment on the treatment of
`sorted` and of exceptions). -/
def build_tree (d : Dir) (show_hidden : Bool) (max_depth : Option Nat)
    (current_depth : Nat) : Except Unit PyVal :=
  if depthReached max_depth current_depth then .ok (.str maxDepthMsg)
  else
    match d with
    | .permErr => .ok (.dict [(accessDeniedLabel, .none)])
    | .otherErr => .error ()
    | .ok entries =>
        match buildPairs entries show_hidden max_depth current_depth with
        | .error e => .error e
        | .ok pairs => .ok (.dict (insertAll (sortPairs pairs)))

/-- The loop body of `build_tree`: one name/value pair per non-skipped entry,
recursing into sub-directories at `current_depth + 1`; a propagating
exception aborts the whole loop. -/
def buildPairs (es : List (String × Option Dir)) (show_hidden : Bool)
    (max_depth : Option Nat) (current_depth : Nat) :
    Except Unit (List (String × PyVal)) :=
  match es with
  | [] => .ok []
  | (name, ent) :: rest =>
      if !show_hidden && isHidden name then
        buildPairs rest show_hidden max_depth current_depth
      else
        match ent with
        | some sub =>
            match build_tree sub show_hidden max_depth (current_depth + 1) with
            | .error e => .error e
            | .ok v =>
                match buildPairs rest show_hidden max_depth current_depth with
                | .error e => .error e
                | .ok tail => .ok ((name, v) :: tail)
        | Option.none =>
            match buildPairs rest show_hidden max_depth current_depth with
            | .error e => .error e
            | .ok tail => .ok ((name, PyVal.none) :: tail)
end

mutual
/-- `display_tree` of src/main.py, with the printed lines returned as a list.
`str (None)` prints as the word None; the builder only ever hands this
function a dict or the depth sentinel string. -/
def display_tree (tree : PyVal) (pre : String) : List String :=
  match tree with
  | .dict es => displayItems es 0 es.length pre
  | .str s => [pre ++ s]
  | .none => [pre ++ "None"]

/-- The `for i, (name, content) in enumerate(tree.items())` loop of
`display_tree`; `i` is the index of the head of `es` and `len` the length of
the whole dict.  A dict child re-enters `display_tree`, which immediately
dispatches back here. -/
def displayItems (es : List (String × PyVal)) (i len : Nat) (pre : String) :
    List String :=
  match es with
  | [] => []
  | (name, content) :: rest =>
      let symbol := if i < len - 1 then "├── " else "└── "
      (pre ++ symbol ++ name) ::
        ((match content with
          | .dict sub =>
              displayItems sub 0 sub.length
                (pre ++ (if i < len - 1 then "│   " else "    "))
          | .str s => [pre ++ "    " ++ s]
          | .none => []) ++ displayItems rest (i + 1) len pre)
end

inductive Shape : Type where
  | box : Shape
  | ellipse : Shape
deriving DecidableEq

structure GNode : Type where
  id : String
  label : String
  shape : Shape
deriving DecidableEq

abbrev GEdge := String × String

/-- The `for name, child in tree.items()` loop of `add_nodes_edges_from_tree`,
returning the nodes and edges it adds, in order.  The recursive call of the
source on a dict child re-enters `add_nodes_edges_from_tree`, whose dict
branch is exactly this loop; on a dict it never raises. -/
def addItems : List (String × PyVal) → String → List GNode × List GEdge
  | [], _ => ([], [])
  | (name, child) :: rest, parent_id =>
      let child_id := parent_id ++ "/" ++ name
      let node : GNode := ⟨child_id, name, .box⟩
      let edge : GEdge := (parent_id, child_id)
      match child with
      | .dict sub =>
          let s := addItems sub child_id
          let r := addItems rest parent_id
          (node :: s.1 ++ r.1, edge :: s.2 ++ r.2)
      | .str content =>
          let leaf_id := child_id ++ "_leaf"
          let leaf : GNode := ⟨leaf_id, content, .ellipse⟩
          let r := addItems rest parent_id
          (node :: leaf :: r.1, edge :: (child_id, leaf_id) :: r.2)
      | .none =>
          let r := addItems rest parent_id
          (node :: r.1, edge :: r.2)

/-- `add_nodes_edges_from_tree` of src/main.py.  `tree.items()` on a non-dict
raises `AttributeError`, modelled by `Except.error`. -/
def add_nodes_edges_from_tree (tree : PyVal) (parent_id : String) :
    Except Unit (List GNode × List GEdge) :=
  match tree with
  | .dict es => .ok (addItems es parent_id)
  | _ => .error ()

/-- `generate_tree_image` of src/main.py up to the pydot handoff: the root
node plus everything `add_nodes_edges_from_tree` adds. -/
def generate_tree_image (tree : PyVal) (root_label : String) :
    Except Unit (List GNode × List GEdge) :=
  let root : GNode := ⟨root_label, root_label, .box⟩
  (add_nodes_edges_from_tree tree root_label).map
    (fun p => (root :: p.1, p.2))

/-- Lowercase hex digit, as Python formats `\uXXXX` escapes. -/
def hexDigitChar (n : Nat) : Char :=
  if n < 10 then Char.ofNat ('0'.toNat + n) else Char.ofNat ('a'.toNat + (n - 10))

/-- The escaping `json.dump` applies inside a string literal with
`ensure_ascii=False`: short escapes for the two JSON metacharacters and the
named control characters, `\u00XX` for the remaining control characters, and
every other character written raw. -/
def escapeChar (c : Char) : List Char :=
  if c = '"' then ['\\', '"']
  else if c = '\\' then ['\\', '\\']
  else if c = '\n' then ['\\', 'n']
  else if c = '\r' then ['\\', 'r']
  else if c = '\t' then ['\\', 't']
  else if c = '\x08' then ['\\', 'b']
  else if c = '\x0c' then ['\\', 'f']
  else if c.toNat < 0x20 then
    ['\\', 'u', '0', '0', hexDigitChar (c.toNat / 16), hexDigitChar (c.toNat % 16)]
  else [c]

def escapeStr (s : String) : List Char :=
  s.data.foldr (fun c acc => escapeChar c ++ acc) []

/-- A JSON string literal. -/
def dumpStr (s : String) : List Char := '"' :: escapeStr s ++ ['"']

/-- `indent=4` padding at nesting level `n`. -/
def indentChars (n : Nat) : List Char := List.replicate (4 * n) ' '

mutual
/-- `json.dump(v, f, indent=4, ensure_ascii=False)` of src/main.py, as the
written characters; `ind` is the nesting level of the value's own line. -/
def dumpVal : PyVal → Nat → List Char
  | .none, _ => ['n', 'u', 'l', 'l']
  | .str s, _ => dumpStr s
  | .dict [], _ => ['{', '}']
  | .dict (e :: es), ind =>
      '{' :: '\n' :: dumpItems (e :: es) (ind + 1) ++ '\n' :: indentChars ind ++ ['}']

/-- The members of a non-empty JSON object, one per line at level `ind`,
separated by commas. -/
def dumpItems : List (String × PyVal) → Nat → List Char
  | [], _ => []
  | [(k, v)], ind => indentChars ind ++ dumpStr k ++ ':' :: ' ' :: dumpVal v ind
  | (k, v) :: e :: es, ind =>
      indentChars ind ++ dumpStr k ++ ':' :: ' ' :: dumpVal v ind ++
        ',' :: '\n' :: dumpItems (e :: es) ind
end

/-- The text of `directory_tree.json` for a built tree. -/
def json_dump (v : PyVal) : String := ⟨dumpVal v 0⟩

/-- Value of one hex digit, either case. -/
def hexVal (c : Char) : Option Nat :=
  if '0'.toNat ≤ c.toNat ∧ c.toNat ≤ '9'.toNat then some (c.toNat - '0'.toNat)
  else if 'a'.toNat ≤ c.toNat ∧ c.toNat ≤ 'f'.toNat then some (c.toNat - 'a'.toNat + 10)
  else if 'A'.toNat ≤ c.toNat ∧ c.toNat ≤ 'F'.toNat then some (c.toNat - 'A'.toNat + 10)
  else Option.none

/-- JSON insignificant whitespace. -/
def isWsChar (c : Char) : Bool := c == ' ' || c == '\n' || c == '\t' || c == '\r'

def skipWs : List Char → List Char
  | [] => []
  | c :: rest => if isWsChar c then skipWs rest else c :: rest

mutual
/-- Modelled from the spec: the body of a JSON string literal as a reader
(such as `json.loads`, which is not part of the repository) consumes it after
the opening quote, decoding the standard escapes (`parseEsc` reads what
follows a backslash). -/
def parseStrBody : List Char → Option (List Char × List Char)
  | [] => Option.none
  | c :: rest =>
      if c = '"' then some ([], rest)
      else if c = '\\' then parseEsc rest
      else (parseStrBody rest).map (fun p => (c :: p.1, p.2))

/-- Modelled from the spec: one escape sequence after the backslash. -/
def parseEsc : List Char → Option (List Char × List Char)
  | 'n' :: r => (parseStrBody r).map (fun p => ('\n' :: p.1, p.2))
  | 't' :: r => (parseStrBody r).map (fun p => ('\t' :: p.1, p.2))
  | 'r' :: r => (parseStrBody r).map (fun p => ('\r' :: p.1, p.2))
  | 'b' :: r => (parseStrBody r).map (fun p => ('\x08' :: p.1, p.2))
  | 'f' :: r => (parseStrBody r).map (fun p => ('\x0c' :: p.1, p.2))
  | '"' :: r => (parseStrBody r).map (fun p => ('"' :: p.1, p.2))
  | '\\' :: r => (parseStrBody r).map (fun p => ('\\' :: p.1, p.2))
  | '/' :: r => (parseStrBody r).map (fun p => ('/' :: p.1, p.2))
  | 'u' :: h₁ :: h₂ :: h₃ :: h₄ :: r =>
      match hexVal h₁, hexVal h₂, hexVal h₃, hexVal h₄ with
      | some a, some b, some c₃, some d =>
          (parseStrBody r).map
            (fun p => (Char.ofNat (4096 * a + 256 * b + 16 * c₃ + d) :: p.1, p.2))
      | _, _, _, _ => Option.none
  | _ => Option.none
end

mutual
/-- Modelled from the spec: a reader for the document sublanguage the
serializer emits (objects, strings, null), with an explicit nesting budget
spent one unit per structural step. -/
def parseVal (fuel : Nat) : List Char → Option (PyVal × List Char)
  | [] => Option.none
  | c :: cs =>
      if c = 'n' then
        match cs with
        | 'u' :: 'l' :: 'l' :: rest => some (.none, rest)
        | _ => Option.none
      else if c = '"' then
        (parseStrBody cs).map (fun p => (.str ⟨p.1⟩, p.2))
      else if c = '{' then
        match fuel with
        | 0 => Option.none
        | f + 1 => parseObj f (skipWs cs)
      else Option.none

/-- Modelled from the spec: an object after the opening brace. -/
def parseObj (fuel : Nat) : List Char → Option (PyVal × List Char)
  | '}' :: rest => some (.dict [], rest)
  | cs =>
      match fuel with
      | 0 => Option.none
      | f + 1 => (parseMembers f cs).map (fun p => (.dict p.1, p.2))

/-- Modelled from the spec: the members of a non-empty object, starting at
the first key. -/
def parseMembers (fuel : Nat) : List Char → Option (List (String × PyVal) × List Char)
  | '"' :: cs₁ =>
      match fuel with
      | 0 => Option.none
      | f + 1 =>
          match parseStrBody cs₁ with
          | some (key, cs₂) => parseColon f (String.mk key) (skipWs cs₂)
          | Option.none => Option.none
  | _ => Option.none

/-- Modelled from the spec: the rest of one member after its key. -/
def parseColon (fuel : Nat) (key : String) : List Char → Option (List (String × PyVal) × List Char)
  | ':' :: cs₃ =>
      match fuel with
      | 0 => Option.none
      | f + 1 =>
          match parseVal f (skipWs cs₃) with
          | some (v, cs₄) => parseSep f key v (skipWs cs₄)
          | Option.none => Option.none
  | _ => Option.none

/-- Modelled from the spec: after one member, either the object closes or a
comma introduces the next member. -/
def parseSep (fuel : Nat) (key : String) (v : PyVal) : List Char → Option (List (String × PyVal) × List Char)
  | '}' :: cs₅ => some ([(key, v)], cs₅)
  | ',' :: cs₅ =>
      match fuel with
      | 0 => Option.none
      | f + 1 => (parseMembers f (skipWs cs₅)).map (fun p => ((key, v) :: p.1, p.2))
  | _ => Option.none
end

/-- Modelled from the spec: re-parsing a serialized document, rejecting
trailing garbage. -/
def parseJson (s : String) : Option PyVal :=
  match parseVal s.data.length s.data with
  | some (v, rest) => if (skipWs rest).isEmpty then some v else Option.none
  | Option.none => Option.none

/-! Observations on built values, used to state the claims. -/

mutual
/-- All dict keys reachable anywhere in a value. -/
def pvKeys : PyVal → List String
  | .dict es => pvKeysItems es
  | _ => []

def pvKeysItems : List (String × PyVal) → List String
  | [] => []
  | (n, v) :: rest => n :: (pvKeys v ++ pvKeysItems rest)
end

mutual
/-- Greatest number of edges from this value down to any named node (a dict
key, that is a File or Directory or AccessDenied entry). -/
def nodeDepth : PyVal → Nat
  | .dict es => itemsDepth es
  | _ => 0

def itemsDepth : List (String × PyVal) → Nat
  | [] => 0
  | (_, v) :: rest => max (1 + nodeDepth v) (itemsDepth rest)
end

/-- Keys strictly ascending in Python string order. -/
def namesChainLt : List String → Bool
  | [] => true
  | [_] => true
  | a :: b :: rest => strLt a b && namesChainLt (b :: rest)

mutual
/-- Every dict anywhere in the value has its keys strictly ascending. -/
def allDictsSorted : PyVal → Bool
  | .dict es => namesChainLt (es.map Prod.fst) && itemsSorted es
  | _ => true

def itemsSorted : List (String × PyVal) → Bool
  | [] => true
  | (_, v) :: rest => allDictsSorted v && itemsSorted rest
end

mutual
/-- Every value anywhere is a dict, None, or the depth sentinel string; in
particular the only string values are depth sentinels, so the
isinstance dict / str / None dispatch of the consumers covers everything the
builder produces. -/
def goodVals : PyVal → Bool
  | .dict es => goodValsItems es
  | .str s => s == maxDepthMsg
  | .none => true

def goodValsItems : List (String × PyVal) → Bool
  | [] => true
  | (_, v) :: rest => goodVals v && goodValsItems rest
end

/-! Order facts for the code-point comparison. -/

theorem strLtChars_irrefl : ∀ l : List Char, strLtChars l l = false := by
  intro l
  induction l with
  | nil => rfl
  | cons a as ih => simp [strLtChars, ih]

theorem strLtChars_trans : ∀ l₁ l₂ l₃ : List Char,
    strLtChars l₁ l₂ = true → strLtChars l₂ l₃ = true → strLtChars l₁ l₃ = true := by
  intro l₁
  induction l₁ with
  | nil =>
      intro l₂ l₃ h₁ h₂
      cases l₂ <;> cases l₃ <;> simp_all [strLtChars]
  | cons a as ih =>
      intro l₂ l₃ h₁ h₂
      cases l₂ with
      | nil => simp [strLtChars] at h₁
      | cons b bs =>
          cases l₃ with
          | nil => simp [strLtChars] at h₂
          | cons c cs =>
              simp only [strLtChars] at h₁ h₂ ⊢
              split_ifs at h₁ h₂ ⊢ with g₁ g₂ g₃ g₄ g₅ g₆ <;>
                first
                | rfl
                | omega
                | (exact ih bs cs h₁ h₂)

theorem char_eq_of_toNat_eq {a b : Char} (h : a.toNat = b.toNat) : a = b := by
  have h₀ := Char.ofNat_toNat a
  rw [h, Char.ofNat_toNat b] at h₀
  exact h₀.symm

theorem strLtChars_eq : ∀ l₁ l₂ : List Char,
    strLtChars l₁ l₂ = false → strLtChars l₂ l₁ = false → l₁ = l₂ := by
  intro l₁
  induction l₁ with
  | nil =>
      intro l₂ h₁ _
      cases l₂ with
      | nil => rfl
      | cons b bs => simp [strLtChars] at h₁
  | cons a as ih =>
      intro l₂ h₁ h₂
      cases l₂ with
      | nil => simp [strLtChars] at h₂
      | cons b bs =>
          simp only [strLtChars] at h₁ h₂
          by_cases g₁ : a.toNat < b.toNat
          · simp [g₁] at h₁
          · by_cases g₂ : b.toNat < a.toNat
            · simp [g₁, g₂] at h₂
            · simp [g₁, g₂] at h₁ h₂
              rw [char_eq_of_toNat_eq (by omega : a.toNat = b.toNat), ih bs h₁ h₂]


theorem strLt_irrefl (a : String) : strLt a a = false := strLtChars_irrefl a.data

theorem strLt_trans {a b c : String} (h₁ : strLt a b = true) (h₂ : strLt b c = true) :
    strLt a c = true := strLtChars_trans _ _ _ h₁ h₂

theorem strLt_asymm {a b : String} (h : strLt a b = true) : strLt b a = false := by
  cases hc : strLt b a with
  | false => rfl
  | true =>
      have h₀ := strLt_trans h hc
      rw [strLt_irrefl] at h₀
      exact h₀.symm

theorem strData_eq {a b : String} (h : a.data = b.data) : a = b := by
  cases a
  cases b
  exact congrArg String.mk h

theorem strEq_of_not_lt {a b : String} (h₁ : strLt a b = false) (h₂ : strLt b a = false) :
    a = b := strData_eq (strLtChars_eq _ _ h₁ h₂)

theorem strLe_iff {a b : String} : strLe a b = true ↔ strLt b a = false := by
  simp [strLe]

theorem strLe_refl (a : String) : strLe a a = true := strLe_iff.mpr (strLt_irrefl a)

theorem strLe_trans {a b c : String} (h₁ : strLe a b = true) (h₂ : strLe b c = true) :
    strLe a c = true := by
  rw [strLe_iff] at h₁ h₂ ⊢
  cases hbc : strLt b c with
  | true =>
      cases hca : strLt c a with
      | false => rfl
      | true =>
          have h₀ := strLt_trans hbc hca
          rw [h₁] at h₀
          exact h₀.symm
  | false =>
      rw [strEq_of_not_lt hbc h₂] at h₁
      exact h₁

theorem strLe_total {a b : String} (h : strLe a b = false) : strLe b a = true := by
  rw [strLe_iff]
  have h₁ : strLt b a = true := by
    cases hc : strLt b a with
    | true => rfl
    | false => simp [strLe, hc] at h
  exact strLt_asymm h₁

theorem strLt_of_le_ne {a b : String} (h₁ : strLe a b = true) (h₂ : a ≠ b) :
    strLt a b = true := by
  rw [strLe_iff] at h₁
  cases hc : strLt a b with
  | true => rfl
  | false => exact absurd (strEq_of_not_lt hc h₁) h₂

/-! Facts about the sorting and the dict assignment. -/

theorem insertPair_perm (e : String × PyVal) (l : List (String × PyVal)) :
    (insertPair e l).Perm (e :: l) := by
  induction l with
  | nil => exact List.Perm.refl _
  | cons x xs ih =>
      rw [insertPair]
      split
      · exact List.Perm.refl _
      · exact (List.Perm.cons x ih).trans (List.Perm.swap e x xs)

theorem sortPairs_perm (l : List (String × PyVal)) : (sortPairs l).Perm l := by
  induction l with
  | nil => exact List.Perm.refl _
  | cons x xs ih => exact (insertPair_perm x (sortPairs xs)).trans (List.Perm.cons x ih)

theorem insertPair_sorted {e : String × PyVal} {l : List (String × PyVal)}
    (h : l.Pairwise (fun p q => strLe p.1 q.1 = true)) :
    (insertPair e l).Pairwise (fun p q => strLe p.1 q.1 = true) := by
  induction l with
  | nil => simp [insertPair]
  | cons x xs ih =>
      rcases List.pairwise_cons.mp h with ⟨hx, hxs⟩
      rw [insertPair]
      split_ifs with g
      · refine List.pairwise_cons.mpr ⟨?_, h⟩
        intro q hq
        rcases List.mem_cons.mp hq with hq | hq
        · rw [hq]; exact g
        · exact strLe_trans g (hx q hq)
      · refine List.pairwise_cons.mpr ⟨?_, ih hxs⟩
        intro q hq
        rcases List.mem_cons.mp ((insertPair_perm e xs).mem_iff.mp hq) with hq | hq
        · rw [hq]; exact strLe_total (by simpa using g)
        · exact hx q hq

theorem sortPairs_sorted (l : List (String × PyVal)) :
    (sortPairs l).Pairwise (fun p q => strLe p.1 q.1 = true) := by
  induction l with
  | nil => simp [sortPairs]
  | cons x xs ih => exact insertPair_sorted ih

theorem dictInsert_fst (es : List (String × PyVal)) (k : String) (v : PyVal) :
    (dictInsert es k v).map Prod.fst =
      if k ∈ es.map Prod.fst then es.map Prod.fst else es.map Prod.fst ++ [k] := by
  induction es with
  | nil => simp [dictInsert]
  | cons x xs ih =>
      obtain ⟨k₀, v₀⟩ := x
      rw [dictInsert]
      by_cases g : k₀ = k
      · rw [if_pos g, g]
        simp
      · rw [if_neg g]
        simp only [List.map_cons, ih]
        by_cases hm : k ∈ xs.map Prod.fst
        · rw [if_pos hm, if_pos (by simp [hm])]
        · rw [if_neg hm, if_neg (by simp [List.mem_cons, hm, Ne.symm g]), List.cons_append]

theorem mem_dictInsert {p : String × PyVal} {es : List (String × PyVal)} {k : String}
    {v : PyVal} (h : p ∈ dictInsert es k v) : p ∈ es ∨ p = (k, v) := by
  induction es with
  | nil => right; simpa [dictInsert] using h
  | cons x xs ih =>
      obtain ⟨k₀, v₀⟩ := x
      rw [dictInsert] at h
      by_cases g : k₀ = k
      · rw [if_pos g] at h
        rcases List.mem_cons.mp h with h | h
        · right; rw [h, g]
        · left; exact List.mem_cons_of_mem _ h
      · rw [if_neg g] at h
        rcases List.mem_cons.mp h with h | h
        · left; rw [h]; exact List.mem_cons_self _ _
        · rcases ih h with h | h
          · left; exact List.mem_cons_of_mem _ h
          · right; exact h

theorem mem_foldl_dictInsert {p : String × PyVal} :
    ∀ (ps acc : List (String × PyVal)),
      p ∈ ps.foldl (fun acc q => dictInsert acc q.1 q.2) acc → p ∈ acc ∨ p ∈ ps := by
  intro ps
  induction ps with
  | nil => intro acc h; exact Or.inl h
  | cons q qs ih =>
      intro acc h
      rw [List.foldl_cons] at h
      rcases ih _ h with h | h
      · rcases mem_dictInsert h with h | h
        · exact Or.inl h
        · right; rw [h]; exact List.mem_cons_self _ _
      · right; exact List.mem_cons_of_mem _ h

theorem mem_insertAll {p : String × PyVal} {ps : List (String × PyVal)}
    (h : p ∈ insertAll ps) : p ∈ ps := by
  rcases mem_foldl_dictInsert ps [] h with h | h
  · cases h
  · exact h

theorem keys_foldl_dictInsert {k : String} :
    ∀ (ps acc : List (String × PyVal)),
      (k ∈ acc.map Prod.fst ∨ k ∈ ps.map Prod.fst) →
      k ∈ (ps.foldl (fun acc q => dictInsert acc q.1 q.2) acc).map Prod.fst := by
  intro ps
  induction ps with
  | nil =>
      intro acc h
      rcases h with h | h
      · exact h
      · simp at h
  | cons q qs ih =>
      intro acc h
      rw [List.foldl_cons]
      apply ih
      rw [dictInsert_fst]
      by_cases hm : q.1 ∈ acc.map Prod.fst
      · rw [if_pos hm]
        rcases h with h | h
        · exact Or.inl h
        · rcases (by simpa using h : k = q.1 ∨ k ∈ qs.map Prod.fst) with h | h
          · exact Or.inl (by rw [h]; exact hm)
          · exact Or.inr h
      · rw [if_neg hm]
        rcases h with h | h
        · exact Or.inl (List.mem_append_left _ h)
        · rcases (by simpa using h : k = q.1 ∨ k ∈ qs.map Prod.fst) with h | h
          · exact Or.inl (List.mem_append_right _ (by simp [h]))
          · exact Or.inr h

theorem foldl_dictInsert_sortedKeys :
    ∀ (ps acc : List (String × PyVal)),
      ps.Pairwise (fun p q => strLe p.1 q.1 = true) →
      (acc.map Prod.fst).Pairwise (fun a b => strLt a b = true) →
      (∀ a ∈ acc.map Prod.fst, ∀ p ∈ ps, strLe a p.1 = true) →
      ((ps.foldl (fun acc q => dictInsert acc q.1 q.2) acc).map Prod.fst).Pairwise
        (fun a b => strLt a b = true) := by
  intro ps
  induction ps with
  | nil => intro acc _ hacc _; exact hacc
  | cons q qs ih =>
      intro acc hps hacc hbound
      rcases List.pairwise_cons.mp hps with ⟨hq, hqs⟩
      rw [List.foldl_cons]
      apply ih _ hqs
      · rw [dictInsert_fst]
        by_cases hm : q.1 ∈ acc.map Prod.fst
        · rw [if_pos hm]; exact hacc
        · rw [if_neg hm]
          refine List.pairwise_append.mpr ⟨hacc, List.pairwise_singleton _ _, ?_⟩
          intro a ha b hb
          rw [List.mem_singleton.mp hb]
          refine strLt_of_le_ne (hbound a ha q (List.mem_cons_self _ _)) ?_
          intro hak
          rw [hak] at ha
          exact hm ha
      · intro a ha p hp
        rw [dictInsert_fst] at ha
        by_cases hm : q.1 ∈ acc.map Prod.fst
        · rw [if_pos hm] at ha
          exact hbound a ha p (List.mem_cons_of_mem _ hp)
        · rw [if_neg hm] at ha
          rcases List.mem_append.mp ha with ha | ha
          · exact hbound a ha p (List.mem_cons_of_mem _ hp)
          · rw [List.mem_singleton.mp ha]
            exact hq p hp

theorem insertAll_sorted_keys (ps : List (String × PyVal)) :
    ((insertAll (sortPairs ps)).map Prod.fst).Pairwise (fun a b => strLt a b = true) :=
  foldl_dictInsert_sortedKeys _ [] (sortPairs_sorted ps) (by simp) (by simp)

theorem namesChainLt_iff : ∀ l : List String,
    namesChainLt l = true ↔ l.Pairwise (fun a b => strLt a b = true) := by
  intro l
  induction l with
  | nil => simp [namesChainLt]
  | cons a l ih =>
      cases l with
      | nil => simp [namesChainLt]
      | cons b l₂ =>
          rw [namesChainLt, Bool.and_eq_true, ih]
          constructor
          · rintro ⟨hab, hrest⟩
            refine List.pairwise_cons.mpr ⟨?_, hrest⟩
            intro q hq
            rcases List.mem_cons.mp hq with h | h
            · rw [h]; exact hab
            · exact strLt_trans hab ((List.pairwise_cons.mp hrest).1 q h)
          · intro h
            rcases List.pairwise_cons.mp h with ⟨ha, hrest⟩
            exact ⟨ha b (List.mem_cons_self _ _), hrest⟩

theorem itemsSorted_iff : ∀ es : List (String × PyVal),
    itemsSorted es = true ↔ ∀ p ∈ es, allDictsSorted p.2 = true := by
  intro es
  induction es with
  | nil => simp [itemsSorted]
  | cons p ps ih =>
      obtain ⟨n, v⟩ := p
      rw [itemsSorted, Bool.and_eq_true, ih]
      constructor
      · rintro ⟨h₁, h₂⟩ q hq
        rcases List.mem_cons.mp hq with h | h
        · rw [h]; exact h₁
        · exact h₂ q h
      · intro h
        exact ⟨h _ (List.mem_cons_self _ _), fun q hq => h q (List.mem_cons_of_mem _ hq)⟩

theorem goodValsItems_iff : ∀ es : List (String × PyVal),
    goodValsItems es = true ↔ ∀ p ∈ es, goodVals p.2 = true := by
  intro es
  induction es with
  | nil => simp [goodValsItems]
  | cons p ps ih =>
      obtain ⟨n, v⟩ := p
      rw [goodValsItems, Bool.and_eq_true, ih]
      constructor
      · rintro ⟨h₁, h₂⟩ q hq
        rcases List.mem_cons.mp hq with h | h
        · rw [h]; exact h₁
        · exact h₂ q h
      · intro h
        exact ⟨h _ (List.mem_cons_self _ _), fun q hq => h q (List.mem_cons_of_mem _ hq)⟩

theorem mem_pvKeysItems {n : String} :
    ∀ es : List (String × PyVal),
      n ∈ pvKeysItems es → ∃ p ∈ es, n = p.1 ∨ n ∈ pvKeys p.2 := by
  intro es
  induction es with
  | nil => intro h; simp [pvKeysItems] at h
  | cons p ps ih =>
      obtain ⟨m, v⟩ := p
      intro h
      rw [pvKeysItems] at h
      rcases List.mem_cons.mp h with h | h
      · exact ⟨(m, v), List.mem_cons_self _ _, Or.inl h⟩
      · rcases List.mem_append.mp h with h | h
        · exact ⟨(m, v), List.mem_cons_self _ _, Or.inr h⟩
        · rcases ih h with ⟨q, hq, hn⟩
          exact ⟨q, List.mem_cons_of_mem _ hq, hn⟩

theorem fst_mem_pvKeysItems {p : String × PyVal} :
    ∀ es : List (String × PyVal), p ∈ es → p.1 ∈ pvKeysItems es := by
  intro es
  induction es with
  | nil => intro h; cases h
  | cons q qs ih =>
      intro h
      obtain ⟨m, v⟩ := q
      rw [pvKeysItems]
      rcases List.mem_cons.mp h with h | h
      · rw [h]
        exact List.mem_cons_self _ _
      · exact List.mem_cons_of_mem _ (List.mem_append_right _ (ih h))

theorem itemsDepth_le {es : List (String × PyVal)} {n : Nat}
    (h : ∀ p ∈ es, nodeDepth p.2 ≤ n) : itemsDepth es ≤ n + 1 := by
  induction es with
  | nil => simp [itemsDepth]
  | cons p ps ih =>
      obtain ⟨m, v⟩ := p
      rw [itemsDepth]
      apply max_le
      · have := h (m, v) (List.mem_cons_self _ _)
        simp only [] at this
        omega
      · exact ih (fun q hq => h q (List.mem_cons_of_mem _ hq))

/-! Case analysis of the builder. -/

theorem build_tree_depth {d : Dir} {sh : Bool} {md : Option Nat} {cd : Nat}
    (h : depthReached md cd = true) :
    build_tree d sh md cd = .ok (.str maxDepthMsg) := by
  cases d <;> (rw [build_tree]; rw [if_pos h])

theorem build_tree_permErr {sh : Bool} {md : Option Nat} {cd : Nat}
    (h : depthReached md cd = false) :
    build_tree Dir.permErr sh md cd = .ok (.dict [(accessDeniedLabel, .none)]) := by
  rw [build_tree, if_neg (by simp [h])]

theorem build_tree_otherErr {sh : Bool} {md : Option Nat} {cd : Nat}
    (h : depthReached md cd = false) :
    build_tree Dir.otherErr sh md cd = .error () := by
  rw [build_tree, if_neg (by simp [h])]

theorem build_tree_ok_dict {es : List (String × Option Dir)} {sh : Bool}
    {md : Option Nat} {cd : Nat} {v : PyVal} (h : depthReached md cd = false)
    (hb : build_tree (Dir.ok es) sh md cd = .ok v) :
    ∃ ps, buildPairs es sh md cd = .ok ps ∧ v = .dict (insertAll (sortPairs ps)) := by
  rw [build_tree, if_neg (by simp [h])] at hb
  cases hps : buildPairs es sh md cd with
  | error e => rw [hps] at hb; cases hb
  | ok ps =>
      rw [hps] at hb
      injection hb with hb
      exact ⟨ps, rfl, hb.symm⟩

theorem buildPairs_cons_hidden {name : String} {ent : Option Dir}
    {rest : List (String × Option Dir)} {sh : Bool} {md : Option Nat} {cd : Nat}
    (hvis : (!sh && isHidden name) = true) :
    buildPairs ((name, ent) :: rest) sh md cd = buildPairs rest sh md cd := by
  cases ent <;> (rw [buildPairs]; rw [if_pos hvis])

theorem buildPairs_cons_some {name : String} {sub : Dir}
    {rest : List (String × Option Dir)} {sh : Bool} {md : Option Nat} {cd : Nat}
    {ps : List (String × PyVal)} (hvis : ¬(!sh && isHidden name) = true)
    (h : buildPairs ((name, some sub) :: rest) sh md cd = .ok ps) :
    ∃ v tail, build_tree sub sh md (cd + 1) = .ok v ∧
      buildPairs rest sh md cd = .ok tail ∧ ps = (name, v) :: tail := by
  rw [buildPairs, if_neg hvis] at h
  cases hv : build_tree sub sh md (cd + 1) with
  | error e => rw [hv] at h; cases h
  | ok v =>
      rw [hv] at h
      cases ht : buildPairs rest sh md cd with
      | error e => rw [ht] at h; cases h
      | ok tail =>
          rw [ht] at h
          injection h with h
          exact ⟨v, tail, rfl, rfl, h.symm⟩

theorem buildPairs_cons_file {name : String} {rest : List (String × Option Dir)}
    {sh : Bool} {md : Option Nat} {cd : Nat} {ps : List (String × PyVal)}
    (hvis : ¬(!sh && isHidden name) = true)
    (h : buildPairs ((name, Option.none) :: rest) sh md cd = .ok ps) :
    ∃ tail, buildPairs rest sh md cd = .ok tail ∧ ps = (name, PyVal.none) :: tail := by
  rw [buildPairs, if_neg hvis] at h
  cases ht : buildPairs rest sh md cd with
  | error e => rw [ht] at h; cases h
  | ok tail =>
      rw [ht] at h
      injection h with h
      exact ⟨tail, rfl, h.symm⟩

/-! The builder invariants.  One master induction: a depth-indexed property
that holds of the sentinel, of the access-denied dict, of None, and of any
sorted-and-assigned dict of pairs whose members satisfy it one level deeper,
holds of every value the builder returns. -/

theorem build_master (sh : Bool) (md : Option Nat) (Q : Nat → PyVal → Prop)
    (hstr : ∀ cd, Q cd (.str maxDepthMsg))
    (hperm : ∀ cd, depthReached md cd = false →
      Q cd (.dict [(accessDeniedLabel, PyVal.none)]))
    (hnone : ∀ cd, Q cd PyVal.none)
    (hdict : ∀ cd ps, depthReached md cd = false →
      (∀ p ∈ ps, (¬(!sh && isHidden p.1) = true) ∧ Q (cd + 1) p.2) →
      Q cd (.dict (insertAll (sortPairs ps)))) :
    ∀ (d : Dir) (cd : Nat) (v : PyVal), build_tree d sh md cd = .ok v → Q cd v := by
  have H := build_tree.induct
    (fun d sh2 md2 cd => sh2 = sh → md2 = md → ∀ v, build_tree d sh2 md2 cd = .ok v →
      Q cd v)
    (fun es sh2 md2 cd => sh2 = sh → md2 = md → ∀ ps, buildPairs es sh2 md2 cd = .ok ps →
      ∀ p ∈ ps, (¬(!sh && isHidden p.1) = true) ∧ Q (cd + 1) p.2)
  intro d cd
  apply H ?_ ?_ ?_ ?_ ?_ ?_ ?_ ?_ ?_ ?_ ?_ ?_ d sh md cd rfl rfl
  · intro t sh2 md2 cd hdep hsh hmd v hv
    rw [build_tree_depth hdep] at hv
    injection hv with hv
    rw [← hv]
    exact hstr cd
  · intro sh2 md2 cd hdep hsh hmd v hv
    subst hmd
    rw [build_tree_permErr (by simpa using hdep)] at hv
    injection hv with hv
    rw [← hv]
    exact hperm cd (by simpa using hdep)
  · intro sh2 md2 cd hdep hsh hmd v hv
    rw [build_tree_otherErr (by simpa using hdep)] at hv
    cases hv
  · intro sh2 md2 cd hdep entries e he ih hsh hmd v hv
    obtain ⟨ps, hps, _⟩ := build_tree_ok_dict (by simpa using hdep) hv
    rw [hps] at he
    cases he
  · intro sh2 md2 cd hdep entries pairs hpairs ih hsh hmd v hv
    subst hsh
    subst hmd
    obtain ⟨ps, hps, hveq⟩ := build_tree_ok_dict (by simpa using hdep) hv
    rw [hveq]
    exact hdict cd ps (by simpa using hdep) (ih rfl rfl ps hps)
  · intro sh2 md2 cd hsh hmd ps hps p hp
    rw [buildPairs] at hps
    injection hps with hps
    rw [← hps] at hp
    cases hp
  · intro sh2 md2 cd name ent rest hvis ih hsh hmd ps hps p hp
    rw [buildPairs_cons_hidden hvis] at hps
    exact ih hsh hmd ps hps p hp
  · intro sh2 md2 cd name rest hvis sub e he ih1 hsh hmd ps hps p hp
    obtain ⟨v, tail, hv, ht, hpe⟩ := buildPairs_cons_some hvis hps
    rw [hv] at he
    cases he
  · intro sh2 md2 cd name rest hvis sub v hv e he ih1 ih2 hsh hmd ps hps p hp
    obtain ⟨v2, tail, hv2, ht, hpe⟩ := buildPairs_cons_some hvis hps
    rw [ht] at he
    cases he
  · intro sh2 md2 cd name rest hvis sub v hv pairs hpairs ih1 ih2 hsh hmd ps hps p hp
    subst hsh
    subst hmd
    obtain ⟨v2, tail, hv2, ht, hpe⟩ := buildPairs_cons_some hvis hps
    rw [hpe] at hp
    rcases List.mem_cons.mp hp with hp | hp
    · rw [hp]
      exact ⟨hvis, ih1 rfl rfl v2 hv2⟩
    · exact ih2 rfl rfl tail ht p hp
  · intro sh2 md2 cd name rest hvis e he ih hsh hmd ps hps p hp
    obtain ⟨tail, ht, hpe⟩ := buildPairs_cons_file hvis hps
    rw [ht] at he
    cases he
  · intro sh2 md2 cd name rest hvis pairs hpairs ih hsh hmd ps hps p hp
    subst hsh
    subst hmd
    obtain ⟨tail, ht, hpe⟩ := buildPairs_cons_file hvis hps
    rw [hpe] at hp
    rcases List.mem_cons.mp hp with hp | hp
    · rw [hp]
      exact ⟨hvis, hnone (cd + 1)⟩
    · exact ih rfl rfl tail ht p hp

theorem build_sorted {d : Dir} {sh : Bool} {md : Option Nat} {cd : Nat} {v : PyVal}
    (h : build_tree d sh md cd = .ok v) : allDictsSorted v = true := by
  refine build_master sh md (fun _ v => allDictsSorted v = true) ?_ ?_ ?_ ?_ d cd v h
  · intro cd; rfl
  · intro cd _; rfl
  · intro cd; rfl
  · intro cd ps _ hmem
    rw [allDictsSorted, Bool.and_eq_true]
    refine ⟨(namesChainLt_iff _).mpr (insertAll_sorted_keys ps), ?_⟩
    exact (itemsSorted_iff _).mpr
      (fun p hp => (hmem p ((sortPairs_perm ps).mem_iff.mp (mem_insertAll hp))).2)

theorem build_goodVals {d : Dir} {sh : Bool} {md : Option Nat} {cd : Nat} {v : PyVal}
    (h : build_tree d sh md cd = .ok v) : goodVals v = true := by
  refine build_master sh md (fun _ v => goodVals v = true) ?_ ?_ ?_ ?_ d cd v h
  · intro cd; rfl
  · intro cd _; rfl
  · intro cd; rfl
  · intro cd ps _ hmem
    rw [goodVals]
    exact (goodValsItems_iff _).mpr
      (fun p hp => (hmem p ((sortPairs_perm ps).mem_iff.mp (mem_insertAll hp))).2)

theorem build_no_hidden {d : Dir} {md : Option Nat} {cd : Nat} {v : PyVal}
    (h : build_tree d false md cd = .ok v) : ∀ n ∈ pvKeys v, isHidden n = false := by
  refine build_master false md (fun _ v => ∀ n ∈ pvKeys v, isHidden n = false)
    ?_ ?_ ?_ ?_ d cd v h
  · intro cd n hn
    exact absurd hn (by simp [pvKeys])
  · intro cd _ n hn
    have he : n = accessDeniedLabel := by simpa [pvKeys, pvKeysItems] using hn
    rw [he]
    rfl
  · intro cd n hn
    exact absurd hn (by simp [pvKeys])
  · intro cd ps _ hmem n hn
    rw [pvKeys] at hn
    obtain ⟨p, hp, hc⟩ := mem_pvKeysItems _ hn
    have hpps := hmem p ((sortPairs_perm ps).mem_iff.mp (mem_insertAll hp))
    rcases hc with hc | hc
    · rw [hc]
      simpa using hpps.1
    · exact hpps.2 n hc

theorem build_depth_bound {d : Dir} {sh : Bool} {k cd : Nat} {v : PyVal}
    (h : build_tree d sh (some k) cd = .ok v) : nodeDepth v ≤ k - cd := by
  refine build_master sh (some k) (fun cd v => nodeDepth v ≤ k - cd) ?_ ?_ ?_ ?_ d cd v h
  · intro cd
    exact Nat.zero_le _
  · intro cd hdep
    have h1 : nodeDepth (.dict [(accessDeniedLabel, PyVal.none)]) = 1 := rfl
    have h2 : ¬(k ≤ cd) := by simpa [depthReached] using hdep
    rw [h1]
    omega
  · intro cd
    exact Nat.zero_le _
  · intro cd ps hdep hmem
    rw [nodeDepth]
    have h2 : ¬(k ≤ cd) := by simpa [depthReached] using hdep
    have hb := itemsDepth_le
      (fun p hp => (hmem p ((sortPairs_perm ps).mem_iff.mp (mem_insertAll hp))).2)
    omega

/-! Processing one visible entry, abstracted, and listing-order insensitivity. -/

/-- The value the loop computes for one visible entry. -/
def entryVal (ent : Option Dir) (sh : Bool) (md : Option Nat) (cd : Nat) :
    Except Unit PyVal :=
  match ent with
  | some sub => build_tree sub sh md (cd + 1)
  | Option.none => .ok PyVal.none

/-- Prepending one computed pair to the pairs of the remaining entries. -/
def entryStep (name : String) (v : Except Unit PyVal)
    (tail : Except Unit (List (String × PyVal))) : Except Unit (List (String × PyVal)) :=
  match v with
  | .error e => .error e
  | .ok v =>
      match tail with
      | .error e => .error e
      | .ok t => .ok ((name, v) :: t)

theorem bp_cons_visible {name : String} {ent : Option Dir}
    {rest : List (String × Option Dir)} {sh : Bool} {md : Option Nat} {cd : Nat}
    (h : ¬(!sh && isHidden name) = true) :
    buildPairs ((name, ent) :: rest) sh md cd =
      entryStep name (entryVal ent sh md cd) (buildPairs rest sh md cd) := by
  cases ent <;> (rw [buildPairs]; rw [if_neg h]) <;> rfl

/-- Relating two loop outcomes: both raise, or both succeed with permuted
pair lists. -/
def exceptRel : Except Unit (List (String × PyVal)) →
    Except Unit (List (String × PyVal)) → Prop
  | .ok l₁, .ok l₂ => l₁.Perm l₂
  | .error _, .error _ => True
  | _, _ => False

theorem exceptRel_refl (a : Except Unit (List (String × PyVal))) : exceptRel a a := by
  cases a with
  | error e => trivial
  | ok l => exact List.Perm.refl l

theorem exceptRel_trans {a b c : Except Unit (List (String × PyVal))}
    (h₁ : exceptRel a b) (h₂ : exceptRel b c) : exceptRel a c := by
  cases a <;> cases b <;> cases c <;> simp [exceptRel] at *
  exact h₁.trans h₂

theorem exceptRel_step {name : String} {v : Except Unit PyVal}
    {t₁ t₂ : Except Unit (List (String × PyVal))} (h : exceptRel t₁ t₂) :
    exceptRel (entryStep name v t₁) (entryStep name v t₂) := by
  cases v with
  | error e => trivial
  | ok w =>
      cases t₁ with
      | error e =>
          cases t₂ with
          | error e2 => trivial
          | ok l₂ => exact h.elim
      | ok l₁ =>
          cases t₂ with
          | error e2 => exact h.elim
          | ok l₂ => exact List.Perm.cons _ h

theorem buildPairs_perm {es₁ es₂ : List (String × Option Dir)} (h : es₁.Perm es₂)
    (sh : Bool) (md : Option Nat) (cd : Nat) :
    exceptRel (buildPairs es₁ sh md cd) (buildPairs es₂ sh md cd) := by
  induction h with
  | nil => exact exceptRel_refl _
  | cons x hp ih =>
      obtain ⟨name, ent⟩ := x
      by_cases hv : (!sh && isHidden name) = true
      · rw [buildPairs_cons_hidden hv, buildPairs_cons_hidden hv]
        exact ih
      · rw [bp_cons_visible hv, bp_cons_visible hv]
        exact exceptRel_step ih
  | swap x y l =>
      obtain ⟨nx, ex⟩ := x
      obtain ⟨ny, ey⟩ := y
      by_cases hx : (!sh && isHidden nx) = true <;>
        by_cases hy : (!sh && isHidden ny) = true
      · rw [buildPairs_cons_hidden hy, buildPairs_cons_hidden hx,
          buildPairs_cons_hidden hx, buildPairs_cons_hidden hy]
        exact exceptRel_refl _
      · rw [buildPairs_cons_hidden hx, bp_cons_visible hy, bp_cons_visible hy,
          buildPairs_cons_hidden hx]
        exact exceptRel_refl _
      · rw [buildPairs_cons_hidden hy, bp_cons_visible hx, bp_cons_visible hx,
          buildPairs_cons_hidden hy]
        exact exceptRel_refl _
      · rw [bp_cons_visible hy, bp_cons_visible hx, bp_cons_visible hx,
          bp_cons_visible hy]
        cases hvy : entryVal ey sh md cd with
        | error e =>
            cases hvx : entryVal ex sh md cd with
            | error e2 => trivial
            | ok wx => trivial
        | ok wy =>
            cases hvx : entryVal ex sh md cd with
            | error e2 => trivial
            | ok wx =>
                cases ht : buildPairs l sh md cd with
                | error e3 => trivial
                | ok t => exact List.Perm.swap _ _ _
  | trans h₁ h₂ ih₁ ih₂ => exact exceptRel_trans ih₁ ih₂

theorem buildPairs_names {es : List (String × Option Dir)} {sh : Bool}
    {md : Option Nat} {cd : Nat} {ps : List (String × PyVal)}
    (hps : buildPairs es sh md cd = .ok ps) :
    ps.map Prod.fst = (es.filter (fun e => !(!sh && isHidden e.1))).map Prod.fst := by
  induction es generalizing ps with
  | nil =>
      rw [buildPairs] at hps
      injection hps with hps
      rw [← hps]
      rfl
  | cons e rest ih =>
      obtain ⟨name, ent⟩ := e
      by_cases hv : (!sh && isHidden name) = true
      · rw [buildPairs_cons_hidden hv] at hps
        rw [List.filter_cons_of_neg (by simp [hv])]
        exact ih hps
      · rw [List.filter_cons_of_pos (by simp [hv])]
        cases ent with
        | some sub =>
            obtain ⟨v, tail, hv2, ht, hpe⟩ := buildPairs_cons_some hv hps
            rw [hpe, List.map_cons, List.map_cons, ih ht]
        | none =>
            obtain ⟨tail, ht, hpe⟩ := buildPairs_cons_file hv hps
            rw [hpe, List.map_cons, List.map_cons, ih ht]

theorem dictInsert_append {es : List (String × PyVal)} {k : String} {v : PyVal}
    (h : ¬k ∈ es.map Prod.fst) : dictInsert es k v = es ++ [(k, v)] := by
  induction es with
  | nil => rfl
  | cons x xs ih =>
      obtain ⟨k₀, v₀⟩ := x
      have h1 : ¬(k₀ = k) := fun he => h (by simp [he])
      have h2 : ¬k ∈ xs.map Prod.fst := fun hm => h (by simp [hm])
      rw [dictInsert, if_neg h1, List.cons_append, ih h2]

theorem foldl_dictInsert_disjoint :
    ∀ (ps acc : List (String × PyVal)),
      (∀ k ∈ ps.map Prod.fst, ¬k ∈ acc.map Prod.fst) → (ps.map Prod.fst).Nodup →
      ps.foldl (fun acc q => dictInsert acc q.1 q.2) acc = acc ++ ps := by
  intro ps
  induction ps with
  | nil => intro acc _ _; simp
  | cons q qs ih =>
      intro acc hdisj hnodup
      rw [List.foldl_cons,
        dictInsert_append (hdisj q.1 (by simp)),
        ih (acc ++ [(q.1, q.2)]) ?_ ?_]
      · simp
      · intro k hk
        rw [List.map_append, List.mem_append]
        rintro (hm | hm)
        · exact hdisj k (by simp [hk]) hm
        · rw [List.map_cons] at hnodup
          rcases List.mem_singleton.mp (by simpa using hm) with he
          rw [List.nodup_cons] at hnodup
          exact hnodup.1 (he ▸ hk)
      · rw [List.map_cons, List.nodup_cons] at hnodup
        exact hnodup.2

theorem insertAll_nodup {ps : List (String × PyVal)}
    (h : (ps.map Prod.fst).Nodup) : insertAll ps = ps := by
  have := foldl_dictInsert_disjoint ps [] (by simp) h
  simpa [insertAll] using this

theorem sortPairs_eq_of_perm {ps₁ ps₂ : List (String × PyVal)} (hp : ps₁.Perm ps₂)
    (hnodup : (ps₁.map Prod.fst).Nodup) : sortPairs ps₁ = sortPairs ps₂ := by
  have hperm : (sortPairs ps₁).Perm (sortPairs ps₂) :=
    ((sortPairs_perm ps₁).trans hp).trans (sortPairs_perm ps₂).symm
  have hstrict : ∀ qs : List (String × PyVal), (qs.map Prod.fst).Nodup →
      (sortPairs qs).Pairwise (fun p q => strLt p.1 q.1 = true) := by
    intro qs hnd
    have hle := sortPairs_sorted qs
    have hnd2 : ((sortPairs qs).map Prod.fst).Nodup :=
      (((sortPairs_perm qs).map Prod.fst).nodup_iff).mpr hnd
    have hne : (sortPairs qs).Pairwise (fun p q => p.1 ≠ q.1) :=
      List.pairwise_map.mp hnd2
    exact (hle.and hne).imp (fun h => strLt_of_le_ne h.1 h.2)
  have hnd₂ : (ps₂.map Prod.fst).Nodup := ((hp.map Prod.fst).nodup_iff).mp hnodup
  haveI : IsAntisymm (String × PyVal) (fun p q => strLt p.1 q.1 = true) :=
    ⟨fun a b h₁ h₂ => by rw [strLt_asymm h₁] at h₂; cases h₂⟩
  exact List.eq_of_perm_of_sorted hperm (hstrict ps₁ hnodup) (hstrict ps₂ hnd₂)

theorem build_deterministic {es₁ es₂ : List (String × Option Dir)} {sh : Bool}
    {md : Option Nat} {cd : Nat} (hperm : es₁.Perm es₂)
    (hnodup : (es₁.map Prod.fst).Nodup) :
    build_tree (Dir.ok es₁) sh md cd = build_tree (Dir.ok es₂) sh md cd := by
  by_cases hd : depthReached md cd = true
  · rw [build_tree_depth hd, build_tree_depth hd]
  · have hrel := buildPairs_perm hperm sh md cd
    rw [build_tree, if_neg hd]
    rw [build_tree, if_neg hd]
    cases h₁ : buildPairs es₁ sh md cd with
    | error e =>
        cases h₂ : buildPairs es₂ sh md cd with
        | error e2 => rfl
        | ok ps₂ =>
            rw [h₁, h₂] at hrel
            exact hrel.elim
    | ok ps₁ =>
        cases h₂ : buildPairs es₂ sh md cd with
        | error e2 =>
            rw [h₁, h₂] at hrel
            exact hrel.elim
        | ok ps₂ =>
            rw [h₁, h₂] at hrel
            have hnd : (ps₁.map Prod.fst).Nodup := by
              rw [buildPairs_names h₁]
              exact List.Nodup.sublist
                ((List.filter_sublist es₁).map Prod.fst) hnodup
            show Except.ok (PyVal.dict (insertAll (sortPairs ps₁))) =
              Except.ok (PyVal.dict (insertAll (sortPairs ps₂)))
            rw [sortPairs_eq_of_perm hrel hnd]

theorem buildPairs_mem_dir {es : List (String × Option Dir)} {sh : Bool}
    {md : Option Nat} {cd : Nat} {ps : List (String × PyVal)} {n : String} {sub : Dir}
    (hps : buildPairs es sh md cd = .ok ps) (hmem : (n, some sub) ∈ es)
    (hvis : ¬(!sh && isHidden n) = true) :
    ∃ v, build_tree sub sh md (cd + 1) = .ok v ∧ (n, v) ∈ ps := by
  induction es generalizing ps with
  | nil => cases hmem
  | cons e rest ih =>
      obtain ⟨m, ment⟩ := e
      rcases List.mem_cons.mp hmem with hhead | htail
      · injection hhead with h1 h2
        subst h1
        subst h2
        obtain ⟨v, tail, hv2, ht, hpe⟩ := buildPairs_cons_some hvis hps
        refine ⟨v, hv2, ?_⟩
        rw [hpe]
        exact List.mem_cons_self _ _
      · by_cases hv : (!sh && isHidden m) = true
        · rw [buildPairs_cons_hidden hv] at hps
          exact ih hps htail
        · cases ment with
          | some msub =>
              obtain ⟨v, tail, hv2, ht, hpe⟩ := buildPairs_cons_some hv hps
              obtain ⟨w, hw, hwmem⟩ := ih ht htail
              refine ⟨w, hw, ?_⟩
              rw [hpe]
              exact List.mem_cons_of_mem _ hwmem
          | none =>
              obtain ⟨tail, ht, hpe⟩ := buildPairs_cons_file hv hps
              obtain ⟨w, hw, hwmem⟩ := ih ht htail
              refine ⟨w, hw, ?_⟩
              rw [hpe]
              exact List.mem_cons_of_mem _ hwmem

theorem build_show_hidden_mem {es : List (String × Option Dir)} {H : String}
    {ent : Option Dir} {v : PyVal}
    (hb : build_tree (Dir.ok es) true Option.none 0 = .ok v)
    (hmem : (H, ent) ∈ es) : H ∈ pvKeys v := by
  obtain ⟨ps, hps, hveq⟩ := build_tree_ok_dict (by rfl) hb
  rw [hveq, pvKeys]
  have hname : H ∈ ps.map Prod.fst := by
    rw [buildPairs_names hps]
    simp only [Bool.not_true, Bool.false_and, Bool.not_false, List.filter_true]
    exact List.mem_map.mpr ⟨(H, ent), hmem, rfl⟩
  have hsort : H ∈ (sortPairs ps).map Prod.fst :=
    ((sortPairs_perm ps).map Prod.fst).mem_iff.mpr hname
  have hkeys := keys_foldl_dictInsert (sortPairs ps) [] (Or.inr hsort)
  obtain ⟨p, hp, hpf⟩ := List.mem_map.mp hkeys
  rw [← hpf]
  exact fst_mem_pvKeysItems _ hp

/-- C1: with `max_depth = k`, a directory reached at depth at least `k` is
replaced by the single depth sentinel (in particular `k = 0` replaces the
whole result by the sentinel), and no named node of the result lies more than
`k` edges below the root. -/
theorem C1_depth_limit :
    (∀ (d : Dir) (sh : Bool) (k cd : Nat), k ≤ cd →
        build_tree d sh (some k) cd = .ok (.str maxDepthMsg))
    ∧ (∀ (d : Dir) (sh : Bool) (k : Nat) (v : PyVal),
        build_tree d sh (some k) 0 = .ok v → nodeDepth v ≤ k) := by
  constructor
  · intro d sh k cd hk
    exact build_tree_depth (by simpa [depthReached] using hk)
  · intro d sh k v h
    simpa using build_depth_bound h

/-- Witness for C1 at a one-file directory with depth limits 0 and 1. -/
theorem C1_depth_limit_witness :
    build_tree (Dir.ok [("a.txt", Option.none)]) false (some 0) 0 =
      .ok (.str maxDepthMsg)
    ∧ nodeDepth (PyVal.dict [("a.txt", PyVal.none)]) ≤ 1 :=
  ⟨C1_depth_limit.1 (Dir.ok [("a.txt", Option.none)]) false 0 0 (by decide),
   C1_depth_limit.2 (Dir.ok [("a.txt", Option.none)]) false 1
     (PyVal.dict [("a.txt", PyVal.none)]) rfl⟩

/-- C2: with `show_hidden = False` no key anywhere in the result is a hidden
name (a hidden entry is skipped entirely, leaving no node and no marker);
with `show_hidden = True` every entry of the listed directory, hidden or not,
appears as a key. -/
theorem C2_hidden_filter :
    (∀ (d : Dir) (md : Option Nat) (cd : Nat) (v : PyVal) (H : String),
        build_tree d false md cd = .ok v → isHidden H = true → ¬H ∈ pvKeys v)
    ∧ (∀ (es : List (String × Option Dir)) (H : String) (ent : Option Dir) (v : PyVal),
        build_tree (Dir.ok es) true Option.none 0 = .ok v → (H, ent) ∈ es →
        H ∈ pvKeys v) := by
  constructor
  · intro d md cd v H hb hH hmem
    have h := build_no_hidden hb H hmem
    rw [hH] at h
    cases h
  · intro es H ent v hb hmem
    exact build_show_hidden_mem hb hmem

/-- Witness for C2 at a directory holding a hidden file and a plain file. -/
theorem C2_hidden_filter_witness :
    ¬(".secret" : String) ∈ pvKeys (PyVal.dict [("a", PyVal.none)])
    ∧ (".secret" : String) ∈
        pvKeys (PyVal.dict [(".secret", PyVal.none), ("a", PyVal.none)]) :=
  ⟨C2_hidden_filter.1 (Dir.ok [(".secret", Option.none), ("a", Option.none)])
      Option.none 0 (PyVal.dict [("a", PyVal.none)]) ".secret" rfl rfl,
   C2_hidden_filter.2 [(".secret", Option.none), ("a", Option.none)] ".secret"
      Option.none (PyVal.dict [(".secret", PyVal.none), ("a", PyVal.none)]) rfl
      (List.mem_cons_self _ _)⟩

/-- C3: every dict anywhere in a built tree has its keys strictly ascending in
Python string order (case-sensitive, by code point), and the result does not
depend on the order in which the filesystem lists a directory: permuting a
listing with distinct names leaves the built tree unchanged, so repeated runs
over an unchanged directory produce identical text, serialized, and graph
output. -/
theorem C3_sorted_deterministic :
    (∀ (d : Dir) (sh : Bool) (md : Option Nat) (cd : Nat) (v : PyVal),
        build_tree d sh md cd = .ok v → allDictsSorted v = true)
    ∧ (∀ (es₁ es₂ : List (String × Option Dir)) (sh : Bool) (md : Option Nat)
        (cd : Nat), es₁.Perm es₂ → (es₁.map Prod.fst).Nodup →
        build_tree (Dir.ok es₁) sh md cd = build_tree (Dir.ok es₂) sh md cd) :=
  ⟨fun _ _ _ _ _ h => build_sorted h,
   fun _ _ _ _ _ hp hn => build_deterministic hp hn⟩

/-- Witness for C3: a two-entry directory, listed in either order. -/
theorem C3_sorted_deterministic_witness :
    allDictsSorted (PyVal.dict [("a", PyVal.dict []), ("b.txt", PyVal.none)]) = true
    ∧ build_tree (Dir.ok [("b.txt", Option.none), ("a", some (Dir.ok []))])
        false Option.none 0 =
      build_tree (Dir.ok [("a", some (Dir.ok [])), ("b.txt", Option.none)])
        false Option.none 0 :=
  ⟨C3_sorted_deterministic.1 (Dir.ok [("b.txt", Option.none), ("a", some (Dir.ok []))])
      false Option.none 0 (PyVal.dict [("a", PyVal.dict []), ("b.txt", PyVal.none)]) rfl,
   C3_sorted_deterministic.2 [("b.txt", Option.none), ("a", some (Dir.ok []))]
      [("a", some (Dir.ok [])), ("b.txt", Option.none)] false Option.none 0
      (List.Perm.swap _ _ _) (by simp)⟩

/-- C4: a permission failure while listing collapses exactly that directory to
the single Access-Denied entry while the rest of the tree is still built; any
other enumeration error propagates and aborts the whole build. -/
theorem C4_permission_errors :
    (∀ (sh : Bool) (md : Option Nat) (cd : Nat), depthReached md cd = false →
        build_tree Dir.permErr sh md cd = .ok (.dict [(accessDeniedLabel, PyVal.none)]))
    ∧ (∀ (sh : Bool) (md : Option Nat) (cd : Nat), depthReached md cd = false →
        build_tree Dir.otherErr sh md cd = .error ())
    ∧ (∀ (es : List (String × Option Dir)) (sh : Bool) (n : String) (v : PyVal),
        build_tree (Dir.ok es) sh Option.none 0 = .ok v →
        (n, some Dir.permErr) ∈ es → ¬(!sh && isHidden n) = true →
        (es.map Prod.fst).Nodup →
        ∃ L, v = .dict L ∧ (n, .dict [(accessDeniedLabel, PyVal.none)]) ∈ L) := by
  refine ⟨fun sh md cd h => build_tree_permErr h,
    fun sh md cd h => build_tree_otherErr h, ?_⟩
  intro es sh n v hb hmem hvis hnodup
  obtain ⟨ps, hps, hveq⟩ := build_tree_ok_dict (by rfl) hb
  obtain ⟨w, hw, hwmem⟩ := buildPairs_mem_dir hps hmem hvis
  rw [build_tree_permErr (by rfl)] at hw
  injection hw with hw
  have hnd : (ps.map Prod.fst).Nodup := by
    rw [buildPairs_names hps]
    exact List.Nodup.sublist ((List.filter_sublist es).map Prod.fst) hnodup
  have hnd2 : ((sortPairs ps).map Prod.fst).Nodup :=
    (((sortPairs_perm ps).map Prod.fst).nodup_iff).mpr hnd
  refine ⟨insertAll (sortPairs ps), hveq, ?_⟩
  rw [insertAll_nodup hnd2, hw]
  exact ((sortPairs_perm ps).mem_iff).mpr hwmem

/-- Witness for C4: a root with a visible file, an unreadable subdirectory,
and (for the fatal branch) an unreadable-for-other-reasons subdirectory. -/
theorem C4_permission_errors_witness :
    build_tree Dir.permErr false Option.none 1 =
      .ok (.dict [(accessDeniedLabel, PyVal.none)])
    ∧ build_tree Dir.otherErr false Option.none 1 = .error ()
    ∧ ∃ L, (PyVal.dict [("a.txt", PyVal.none),
        ("locked", PyVal.dict [(accessDeniedLabel, PyVal.none)])]) = .dict L ∧
        ("locked", PyVal.dict [(accessDeniedLabel, PyVal.none)]) ∈ L :=
  ⟨C4_permission_errors.1 false Option.none 1 rfl,
   C4_permission_errors.2.1 false Option.none 1 rfl,
   C4_permission_errors.2.2 [("a.txt", Option.none), ("locked", some Dir.permErr)]
     false "locked"
     (PyVal.dict [("a.txt", PyVal.none),
       ("locked", PyVal.dict [(accessDeniedLabel, PyVal.none)])])
     rfl (List.mem_cons_of_mem _ (List.mem_cons_self _ _)) (by decide) (by simp)⟩

/-- C10: every value reachable in a built tree is a dict, None, or the depth
sentinel string (the only string values are depth sentinels), and a
permission failure is encoded as a dict entry with the Access-Denied key and
value None, never as a string value; hence the dict / str / None dispatch of
the consumers covers everything the builder produces. -/
theorem C10_value_shapes :
    (∀ (d : Dir) (sh : Bool) (md : Option Nat) (cd : Nat) (v : PyVal),
        build_tree d sh md cd = .ok v → goodVals v = true)
    ∧ (∀ (sh : Bool) (md : Option Nat) (cd : Nat), depthReached md cd = false →
        build_tree Dir.permErr sh md cd =
          .ok (.dict [(accessDeniedLabel, PyVal.none)])) :=
  ⟨fun _ _ _ _ _ h => build_goodVals h,
   fun _ _ _ h => build_tree_permErr h⟩

/-- Witness for C10 at a tree with a depth sentinel and an access-denied
entry. -/
theorem C10_value_shapes_witness :
    goodVals (PyVal.dict [("locked", PyVal.dict [(accessDeniedLabel, PyVal.none)]),
      ("sub", PyVal.dict [("deep", PyVal.str maxDepthMsg)])]) = true
    ∧ build_tree Dir.permErr true Option.none 3 =
        .ok (.dict [(accessDeniedLabel, PyVal.none)]) :=
  ⟨C10_value_shapes.1
      (Dir.ok [("sub", some (Dir.ok [("deep", some (Dir.ok []))])),
        ("locked", some Dir.permErr)])
      true (some 2) 0
      (PyVal.dict [("locked", PyVal.dict [(accessDeniedLabel, PyVal.none)]),
        ("sub", PyVal.dict [("deep", PyVal.str maxDepthMsg)])]) rfl,
   C10_value_shapes.2 true Option.none 3 rfl⟩

/-- C8: evaluation at the failing input `max_depth = 0`.  The build succeeds
with the bare sentinel string, the text render shows exactly one line, but
the graph emitter calls `.items()` on that string and raises
`AttributeError`, so the PNG is never produced and the run exits non-zero. -/
theorem C8_max_depth_zero_crash :
    build_tree (Dir.ok [("a.txt", Option.none)]) false (some 0) 0 =
      .ok (.str maxDepthMsg)
    ∧ display_tree (.str maxDepthMsg) "" = [maxDepthMsg]
    ∧ add_nodes_edges_from_tree (.str maxDepthMsg) "root" = .error ()
    ∧ generate_tree_image (.str maxDepthMsg) "root" = .error () :=
  ⟨rfl, rfl, rfl, rfl⟩

/-! The text renderer, characterized. -/

mutual
/-- The rendering described by the amended C6 claim, structured by the spec's
words: each child prints its name after a branch glyph, a continuation marker
for all but the last child and a terminal marker for the last; a dict child
recurses with the prefix extended by a continuation column or blank padding; a
depth sentinel string prints below its directory's line, indented one level,
with no glyph of its own; a None child (a File, or the Access-Denied leaf)
prints only its glyph line. -/
def displaySpecA (tree : PyVal) (pre : String) : List String :=
  match tree with
  | .dict es => displaySpecAItems es pre
  | .str s => [pre ++ s]
  | .none => [pre ++ "None"]

/-- One child's printed block. -/
def childBlockA (pre sym pad name : String) (content : PyVal) : List String :=
  match content with
  | .dict sub => (pre ++ sym ++ name) :: displaySpecAItems sub (pre ++ pad)
  | .str s => [pre ++ sym ++ name, pre ++ "    " ++ s]
  | .none => [pre ++ sym ++ name]

/-- All but the last child use the continuation marker; the last child uses
the terminal marker. -/
def displaySpecAItems : List (String × PyVal) → String → List String
  | [], _ => []
  | [(name, content)], pre => childBlockA pre "└── " "    " name content
  | (name, content) :: e :: rest, pre =>
      childBlockA pre "├── " "│   " name content ++ displaySpecAItems (e :: rest) pre
end

theorem displayItems_eq_spec :
    ∀ (es : List (String × PyVal)) (i len : Nat) (pre : String),
      len = i + es.length → displayItems es i len pre = displaySpecAItems es pre := by
  have H := displayItems.induct
    (fun es i len pre => len = i + es.length →
      displayItems es i len pre = displaySpecAItems es pre)
  intro es i len pre
  apply H ?_ ?_ es i len pre
  · intro i len pre _
    rw [displayItems, displaySpecAItems]
  · intro i len pre name content rest ihc ihr hlen
    have hrlen : len = (i + 1) + rest.length := by
      rw [hlen, List.length_cons]
      omega
    cases content with
    | dict sub =>
        replace ihc : sub.length = 0 + sub.length →
            displayItems sub 0 sub.length
              (pre ++ if h : i < len - 1 then "│   " else "    ") =
            displaySpecAItems sub
              (pre ++ if h : i < len - 1 then "│   " else "    ") := ihc
        rw [displayItems]
        cases rest with
        | nil =>
            have hlast : ¬(i < len - 1) := by
              rw [hlen]
              simp
            rw [dif_neg hlast] at ihc
            simp only [if_neg hlast]
            rw [ihc (by omega), ihr hrlen, displaySpecAItems, displaySpecAItems,
              childBlockA]
            simp
        | cons e rest2 =>
            have hlast : i < len - 1 := by
              rw [hlen]
              simp only [List.length_cons]
              omega
            rw [dif_pos hlast] at ihc
            simp only [if_pos hlast]
            rw [ihc (by omega), ihr hrlen, displaySpecAItems, childBlockA]
            simp
    | str s =>
        rw [displayItems]
        cases rest with
        | nil =>
            have hlast : ¬(i < len - 1) := by
              rw [hlen]
              simp
            simp only [if_neg hlast]
            rw [ihr hrlen, displaySpecAItems, displaySpecAItems, childBlockA]
            simp
        | cons e rest2 =>
            have hlast : i < len - 1 := by
              rw [hlen]
              simp only [List.length_cons]
              omega
            simp only [if_pos hlast]
            rw [ihr hrlen, displaySpecAItems, childBlockA]
            simp
    | none =>
        rw [displayItems]
        cases rest with
        | nil =>
            have hlast : ¬(i < len - 1) := by
              rw [hlen]
              simp
            simp only [if_neg hlast]
            rw [ihr hrlen, displaySpecAItems, displaySpecAItems, childBlockA]
            simp
        | cons e rest2 =>
            have hlast : i < len - 1 := by
              rw [hlen]
              simp only [List.length_cons]
              omega
            simp only [if_pos hlast]
            rw [ihr hrlen, displaySpecAItems, childBlockA]
            simp

/-- C6 (counterexample): the claim as stated fails for AccessDenied: at the
tree built for a root whose subdirectory cannot be listed, the renderer
prints the Access-Denied leaf with a terminal branch glyph, and the claimed
glyph-free line (the label indented one level under its parent) appears
nowhere in the output. -/
theorem C6_counterexample :
    build_tree (Dir.ok [("locked", some Dir.permErr)]) false Option.none 0 =
      .ok (.dict [("locked", .dict [(accessDeniedLabel, PyVal.none)])])
    ∧ display_tree (.dict [("locked", .dict [(accessDeniedLabel, PyVal.none)])]) "" =
        ["└── locked", "    └── 🚫 Access Denied"]
    ∧ ¬("        🚫 Access Denied" ∈
          display_tree (.dict [("locked", .dict [(accessDeniedLabel, PyVal.none)])]) "") := by
  have hd : display_tree (.dict [("locked", .dict [(accessDeniedLabel, PyVal.none)])]) ""
      = ["└── locked", "    └── 🚫 Access Denied"] := by
    simp [display_tree, displayItems, accessDeniedLabel]
  refine ⟨rfl, hd, ?_⟩
  rw [hd]
  decide

/-- C6 (amended): the renderer prints exactly the amended-claim rendering:
DepthLimitReached notices indented one level with no glyph of their own,
while File, Directory, and AccessDenied children all get a branch glyph — a
continuation marker for all but the last child and a terminal marker for the
last. -/
theorem C6_renderer_amended :
    ∀ (tree : PyVal) (pre : String), display_tree tree pre = displaySpecA tree pre := by
  intro tree pre
  cases tree with
  | dict es =>
      rw [display_tree, displaySpecA]
      exact displayItems_eq_spec es 0 es.length pre (by omega)
  | str s => rw [display_tree, displaySpecA]
  | none => rw [display_tree, displaySpecA]

/-- C7 (counterexample): the claim as stated fails for AccessDenied: at the
built tree of a root with an unreadable subdirectory, the emitter renders the
Access-Denied leaf as an ordinary rectangular node whose identifier is the
parent id extended by /name, and the output contains no elliptical node at
all. -/
theorem C7_counterexample :
    build_tree (Dir.ok [("locked", some Dir.permErr)]) false Option.none 0 =
      .ok (.dict [("locked", .dict [(accessDeniedLabel, PyVal.none)])])
    ∧ add_nodes_edges_from_tree
        (.dict [("locked", .dict [(accessDeniedLabel, PyVal.none)])]) "root" =
      .ok ([⟨"root/locked", "locked", .box⟩,
            ⟨"root/locked/🚫 Access Denied", accessDeniedLabel, .box⟩],
           [("root", "root/locked"),
            ("root/locked", "root/locked/🚫 Access Denied")])
    ∧ (∀ gn : GNode,
        gn ∈ [(⟨"root/locked", "locked", .box⟩ : GNode),
              ⟨"root/locked/🚫 Access Denied", accessDeniedLabel, .box⟩] →
        gn.shape ≠ Shape.ellipse) := by
  refine ⟨rfl, ?_, by decide⟩
  simp [add_nodes_edges_from_tree, addItems, accessDeniedLabel]

/-- C7 (amended): every depth-sentinel (string) child yields an elliptical
leaf node whose identifier is the owning directory's identifier plus the
_leaf suffix, with an edge from the owning directory node; every None child —
a File or the Access-Denied leaf — yields an ordinary rectangular node; and
every elliptical node in the output carries the _leaf suffix. -/
theorem C7_graph_amended :
    (∀ (es : List (String × PyVal)) (pid name s : String), (name, .str s) ∈ es →
        (⟨pid ++ "/" ++ name ++ "_leaf", s, .ellipse⟩ : GNode) ∈ (addItems es pid).1 ∧
        ((pid ++ "/" ++ name, pid ++ "/" ++ name ++ "_leaf") : GEdge) ∈
          (addItems es pid).2)
    ∧ (∀ (es : List (String × PyVal)) (pid name : String), (name, PyVal.none) ∈ es →
        (⟨pid ++ "/" ++ name, name, .box⟩ : GNode) ∈ (addItems es pid).1 ∧
        ((pid, pid ++ "/" ++ name) : GEdge) ∈ (addItems es pid).2)
    ∧ (∀ (es : List (String × PyVal)) (pid : String) (gn : GNode),
        gn ∈ (addItems es pid).1 → gn.shape = Shape.ellipse →
        ∃ cid : String, gn.id = cid ++ "_leaf") := by
  refine ⟨?_, ?_, ?_⟩
  · intro es pid name s hmem
    induction es with
    | nil => cases hmem
    | cons e rest ih =>
        obtain ⟨m, content⟩ := e
        rcases List.mem_cons.mp hmem with hh | ht
        · injection hh with h1 h2
          subst h1
          rw [← h2, addItems]
          exact ⟨List.mem_cons_of_mem _ (List.mem_cons_self _ _),
            List.mem_cons_of_mem _ (List.mem_cons_self _ _)⟩
        · obtain ⟨hn, he⟩ := ih ht
          cases content with
          | dict sub =>
              rw [addItems]
              exact ⟨List.mem_cons_of_mem _ (List.mem_append_right _ hn),
                List.mem_cons_of_mem _ (List.mem_append_right _ he)⟩
          | str s2 =>
              rw [addItems]
              exact ⟨List.mem_cons_of_mem _ (List.mem_cons_of_mem _ hn),
                List.mem_cons_of_mem _ (List.mem_cons_of_mem _ he)⟩
          | none =>
              rw [addItems]
              exact ⟨List.mem_cons_of_mem _ hn, List.mem_cons_of_mem _ he⟩
  · intro es pid name hmem
    induction es with
    | nil => cases hmem
    | cons e rest ih =>
        obtain ⟨m, content⟩ := e
        rcases List.mem_cons.mp hmem with hh | ht
        · injection hh with h1 h2
          subst h1
          rw [← h2, addItems]
          exact ⟨List.mem_cons_self _ _, List.mem_cons_self _ _⟩
        · obtain ⟨hn, he⟩ := ih ht
          cases content with
          | dict sub =>
              rw [addItems]
              exact ⟨List.mem_cons_of_mem _ (List.mem_append_right _ hn),
                List.mem_cons_of_mem _ (List.mem_append_right _ he)⟩
          | str s2 =>
              rw [addItems]
              exact ⟨List.mem_cons_of_mem _ (List.mem_cons_of_mem _ hn),
                List.mem_cons_of_mem _ (List.mem_cons_of_mem _ he)⟩
          | none =>
              rw [addItems]
              exact ⟨List.mem_cons_of_mem _ hn, List.mem_cons_of_mem _ he⟩
  · intro es pid
    have H := addItems.induct
      (fun es pid => ∀ gn : GNode, gn ∈ (addItems es pid).1 →
        gn.shape = Shape.ellipse → ∃ cid : String, gn.id = cid ++ "_leaf")
    apply H ?_ ?_ ?_ ?_ es pid
    · intro pid gn hgn _
      rw [addItems] at hgn
      cases hgn
    · intro name rest pid cid sub ihs ihr gn hgn hshape
      rw [addItems] at hgn
      rcases List.mem_cons.mp hgn with hh | ht
      · rw [hh] at hshape
        cases hshape
      · rcases List.mem_append.mp ht with hm | hm
        · exact ihs gn hm hshape
        · exact ihr gn hm hshape
    · intro name rest pid s ihr gn hgn hshape
      rw [addItems] at hgn
      rcases List.mem_cons.mp hgn with hh | ht
      · rw [hh] at hshape
        cases hshape
      · rcases List.mem_cons.mp ht with hh | hm
        · exact ⟨pid ++ "/" ++ name, by rw [hh]⟩
        · exact ihr gn hm hshape
    · intro name rest pid ihr gn hgn hshape
      rw [addItems] at hgn
      rcases List.mem_cons.mp hgn with hh | ht
      · rw [hh] at hshape
        cases hshape
      · exact ihr gn ht hshape

/-- Witness for the amended C7 at a directory holding a depth-limited
subdirectory and a plain file. -/
theorem C7_graph_amended_witness :
    (⟨"root" ++ "/" ++ "sub" ++ "_leaf", maxDepthMsg, .ellipse⟩ : GNode) ∈
      (addItems [("sub", .str maxDepthMsg), ("a.txt", PyVal.none)] "root").1
    ∧ (⟨"root" ++ "/" ++ "a.txt", "a.txt", .box⟩ : GNode) ∈
      (addItems [("sub", .str maxDepthMsg), ("a.txt", PyVal.none)] "root").1 :=
  ⟨(C7_graph_amended.1 [("sub", .str maxDepthMsg), ("a.txt", PyVal.none)] "root"
      "sub" maxDepthMsg (List.mem_cons_self _ _)).1,
   (C7_graph_amended.2.1 [("sub", .str maxDepthMsg), ("a.txt", PyVal.none)] "root"
      "a.txt" (List.mem_cons_of_mem _ (List.mem_cons_self _ _))).1⟩

/-! Round-trip of the serialized document. -/

mutual
/-- Reader budget sufficient for a value. -/
def pvFuel : PyVal → Nat
  | .dict es => 2 + itemsFuel es
  | .str _ => 0
  | .none => 0

def itemsFuel : List (String × PyVal) → Nat
  | [] => 0
  | (_, v) :: rest => 3 + pvFuel v + itemsFuel rest
end

theorem hexVal_hexDigitChar : ∀ m : Fin 16, hexVal (hexDigitChar m.val) = some m.val := by
  decide

theorem skipWs_sp (cs : List Char) : skipWs (' ' :: cs) = skipWs cs := rfl

theorem skipWs_nl (cs : List Char) : skipWs ('\n' :: cs) = skipWs cs := rfl

theorem skipWs_replicate (n : Nat) (cs : List Char) :
    skipWs (List.replicate n ' ' ++ cs) = skipWs cs := by
  induction n with
  | zero => rfl
  | succ n ih => rw [List.replicate_succ, List.cons_append, skipWs_sp, ih]

theorem skipWs_dumpVal (v : PyVal) (ind : Nat) (X : List Char) :
    skipWs (dumpVal v ind ++ X) = dumpVal v ind ++ X := by
  cases v with
  | none => rfl
  | str s => rfl
  | dict es =>
      cases es with
      | nil => rfl
      | cons e es2 => rfl


theorem psb_quote (rest : List Char) : parseStrBody ('"' :: rest) = some ([], rest) := rfl

theorem psb_esc_u {h₁ h₂ h₃ h₄ : Char} {a b c₃ d : Nat} (rest : List Char)
    (e₁ : hexVal h₁ = some a) (e₂ : hexVal h₂ = some b) (e₃ : hexVal h₃ = some c₃)
    (e₄ : hexVal h₄ = some d) :
    parseStrBody ('\\' :: 'u' :: h₁ :: h₂ :: h₃ :: h₄ :: rest) =
      (parseStrBody rest).map
        (fun p => (Char.ofNat (4096 * a + 256 * b + 16 * c₃ + d) :: p.1, p.2)) := by
  have h0 : parseStrBody ('\\' :: 'u' :: h₁ :: h₂ :: h₃ :: h₄ :: rest) =
      match hexVal h₁, hexVal h₂, hexVal h₃, hexVal h₄ with
      | some w, some x, some y, some z =>
          (parseStrBody rest).map
            (fun p => (Char.ofNat (4096 * w + 256 * x + 16 * y + z) :: p.1, p.2))
      | _, _, _, _ => Option.none := rfl
  rw [h0, e₁, e₂, e₃, e₄]

theorem psb_raw (c : Char) (rest : List Char) (h1 : ¬c = '"') (h2 : ¬c = '\\') :
    parseStrBody (c :: rest) = (parseStrBody rest).map (fun p => (c :: p.1, p.2)) := by
  rw [parseStrBody, if_neg h1, if_neg h2]

theorem parseStrBody_escape :
    ∀ (l : List Char) (rest : List Char),
      parseStrBody (l.foldr (fun c acc => escapeChar c ++ acc) [] ++ '"' :: rest) =
        some (l, rest) := by
  intro l
  induction l with
  | nil => intro rest; rfl
  | cons c l ih =>
      intro rest
      rw [List.foldr_cons, List.append_assoc, escapeChar]
      split_ifs with h₁ h₂ h₃ h₄ h₅ h₆ h₇ h₈
      · subst h₁
        rw [List.cons_append, List.cons_append, List.nil_append,
          show ∀ X, parseStrBody ('\\' :: '"' :: X) =
            (parseStrBody X).map (fun p => ('"' :: p.1, p.2)) from fun X => rfl, ih]
        rfl
      · subst h₂
        rw [List.cons_append, List.cons_append, List.nil_append,
          show ∀ X, parseStrBody ('\\' :: '\\' :: X) =
            (parseStrBody X).map (fun p => ('\\' :: p.1, p.2)) from fun X => rfl, ih]
        rfl
      · subst h₃
        rw [List.cons_append, List.cons_append, List.nil_append,
          show ∀ X, parseStrBody ('\\' :: 'n' :: X) =
            (parseStrBody X).map (fun p => ('\n' :: p.1, p.2)) from fun X => rfl, ih]
        rfl
      · subst h₄
        rw [List.cons_append, List.cons_append, List.nil_append,
          show ∀ X, parseStrBody ('\\' :: 'r' :: X) =
            (parseStrBody X).map (fun p => ('\r' :: p.1, p.2)) from fun X => rfl, ih]
        rfl
      · subst h₅
        rw [List.cons_append, List.cons_append, List.nil_append,
          show ∀ X, parseStrBody ('\\' :: 't' :: X) =
            (parseStrBody X).map (fun p => ('\t' :: p.1, p.2)) from fun X => rfl, ih]
        rfl
      · subst h₆
        rw [List.cons_append, List.cons_append, List.nil_append,
          show ∀ X, parseStrBody ('\\' :: 'b' :: X) =
            (parseStrBody X).map (fun p => ('\x08' :: p.1, p.2)) from fun X => rfl, ih]
        rfl
      · subst h₇
        rw [List.cons_append, List.cons_append, List.nil_append,
          show ∀ X, parseStrBody ('\\' :: 'f' :: X) =
            (parseStrBody X).map (fun p => ('\x0c' :: p.1, p.2)) from fun X => rfl, ih]
        rfl
      · simp only [List.cons_append, List.nil_append]
        rw [psb_esc_u _ (show hexVal '0' = some 0 from rfl)
          (show hexVal '0' = some 0 from rfl)
          (hexVal_hexDigitChar ⟨c.toNat / 16, by omega⟩)
          (hexVal_hexDigitChar ⟨c.toNat % 16, by omega⟩), ih]
        have harg : 4096 * 0 + 256 * 0 + 16 * (c.toNat / 16) + c.toNat % 16 = c.toNat := by
          omega
        rw [harg, Char.ofNat_toNat]
        rfl
      · rw [List.singleton_append, psb_raw c _ h₁ h₂, ih]
        rfl

theorem stringMk_data (s : String) : String.mk s.data = s := by cases s; rfl

theorem parseStrBody_escapeStr (s : String) (rest : List Char) :
    parseStrBody (escapeStr s ++ '"' :: rest) = some (s.data, rest) := by
  rw [escapeStr]
  exact parseStrBody_escape s.data rest

theorem skipWs_colon (X : List Char) : skipWs (':' :: X) = ':' :: X := rfl

theorem skipWs_comma (X : List Char) : skipWs (',' :: X) = ',' :: X := rfl

theorem skipWs_rbrace (X : List Char) : skipWs ('}' :: X) = '}' :: X := rfl

theorem skipWs_quote (X : List Char) : skipWs ('"' :: X) = '"' :: X := rfl

theorem skipWs_indent (n : Nat) (X : List Char) :
    skipWs (indentChars n ++ X) = skipWs X := by
  rw [indentChars, skipWs_replicate]

theorem dumpStr_eq (k : String) (X : List Char) :
    dumpStr k ++ X = '"' :: (escapeStr k ++ '"' :: X) := by
  rw [dumpStr]
  simp

/-- The separator text after one member: nothing before the closing brace,
or a comma and newline before the next member. -/
def sepText : List (String × PyVal) → Nat → List Char → List Char
  | [], _, T => T
  | e :: es3, ind, T => ',' :: '\n' :: (dumpItems (e :: es3) ind ++ T)

theorem dumpItems_shape (k : String) (v : PyVal) (es2 : List (String × PyVal))
    (ind : Nat) (T : List Char) :
    dumpItems ((k, v) :: es2) ind ++ T =
      indentChars ind ++ ('"' :: (escapeStr k ++ '"' :: ':' :: ' ' :: (dumpVal v ind ++
        sepText es2 ind T))) := by
  cases es2 with
  | nil =>
      rw [dumpItems, sepText]
      simp [dumpStr]
  | cons e es3 =>
      rw [dumpItems, sepText]
      simp [dumpStr]

theorem parseVal_null (fuel : Nat) (cs : List Char) :
    parseVal fuel ('n' :: 'u' :: 'l' :: 'l' :: cs) = some (.none, cs) := by
  cases fuel <;> rfl

theorem parseVal_str (fuel : Nat) (s : String) (rest : List Char) :
    parseVal fuel ('"' :: (escapeStr s ++ '"' :: rest)) = some (.str s, rest) := by
  have h0 : parseVal fuel ('"' :: (escapeStr s ++ '"' :: rest)) =
      (parseStrBody (escapeStr s ++ '"' :: rest)).map (fun p => (.str ⟨p.1⟩, p.2)) := by
    cases fuel <;> rfl
  rw [h0, parseStrBody_escapeStr]
  simp only [Option.map_some', stringMk_data]

theorem parseVal_lbrace (f : Nat) (cs : List Char) :
    parseVal (f + 1) ('{' :: cs) = parseObj f (skipWs cs) := rfl

theorem parseObj_rbrace (fuel : Nat) (rest : List Char) :
    parseObj fuel ('}' :: rest) = some (.dict [], rest) := by
  cases fuel <;> rfl

theorem parseObj_quote (f : Nat) (Z : List Char) :
    parseObj (f + 1) ('"' :: Z) =
      (parseMembers f ('"' :: Z)).map (fun p => (.dict p.1, p.2)) := rfl

theorem parseMembers_key (f : Nat) (cs₁ key : List Char) (cs₂ : List Char)
    (hkey : parseStrBody cs₁ = some (key, cs₂)) :
    parseMembers (f + 1) ('"' :: cs₁) = parseColon f (String.mk key) (skipWs cs₂) := by
  have h0 : parseMembers (f + 1) ('"' :: cs₁) =
      match parseStrBody cs₁ with
      | some (k, c) => parseColon f (String.mk k) (skipWs c)
      | Option.none => Option.none := rfl
  rw [h0, hkey]

theorem parseColon_val (f : Nat) (key : String) (cs₃ : List Char) (v : PyVal)
    (cs₄ : List Char) (hv : parseVal f (skipWs cs₃) = some (v, cs₄)) :
    parseColon (f + 1) key (':' :: cs₃) = parseSep f key v (skipWs cs₄) := by
  have h0 : parseColon (f + 1) key (':' :: cs₃) =
      match parseVal f (skipWs cs₃) with
      | some (w, c) => parseSep f key w (skipWs c)
      | Option.none => Option.none := rfl
  rw [h0, hv]

theorem parseSep_rbrace (fuel : Nat) (key : String) (v : PyVal) (cs₅ : List Char) :
    parseSep fuel key v ('}' :: cs₅) = some ([(key, v)], cs₅) := by
  cases fuel <;> rfl

theorem parseSep_comma (f : Nat) (key : String) (v : PyVal) (cs₅ : List Char) :
    parseSep (f + 1) key v (',' :: cs₅) =
      (parseMembers f (skipWs cs₅)).map (fun p => ((key, v) :: p.1, p.2)) := rfl

theorem parseVal_dump :
    ∀ (v : PyVal) (ind : Nat) (rest : List Char) (fuel : Nat),
      pvFuel v ≤ fuel → parseVal fuel (dumpVal v ind ++ rest) = some (v, rest) := by
  have H := pvFuel.induct
    (fun v => ∀ (ind : Nat) (rest : List Char) (fuel : Nat), pvFuel v ≤ fuel →
      parseVal fuel (dumpVal v ind ++ rest) = some (v, rest))
    (fun es => ∀ (ind ind2 : Nat) (rest : List Char) (fuel : Nat), es ≠ [] →
      itemsFuel es ≤ fuel →
      parseMembers fuel
        (skipWs (dumpItems es ind ++ '\n' :: (indentChars ind2 ++ '}' :: rest))) =
      some (es, rest))
  intro v
  apply H ?_ ?_ ?_ ?_ ?_ v
  · intro es ih ind rest fuel hfuel
    rw [pvFuel] at hfuel
    obtain ⟨f, rfl⟩ : ∃ f, fuel = f + 1 := ⟨fuel - 1, by omega⟩
    cases es with
    | nil =>
        rw [show dumpVal (.dict []) ind ++ rest = '{' :: '}' :: rest from rfl,
          parseVal_lbrace, show skipWs ('}' :: rest) = '}' :: rest from rfl,
          parseObj_rbrace]
    | cons e es2 =>
        obtain ⟨g, rfl⟩ : ∃ g, f = g + 1 := by
          obtain ⟨kk, vv⟩ := e
          rw [itemsFuel] at hfuel
          exact ⟨f - 1, by omega⟩
        obtain ⟨km, vm⟩ := e
        have hm := ih (ind + 1) ind rest g (by simp) (by omega)
        rw [show dumpVal (.dict ((km, vm) :: es2)) ind ++ rest =
            '{' :: '\n' :: (dumpItems ((km, vm) :: es2) (ind + 1) ++
              ('\n' :: (indentChars ind ++ '}' :: rest))) from by
          rw [dumpVal]; simp]
        rw [parseVal_lbrace, skipWs_nl]
        rw [dumpItems_shape, skipWs_indent, skipWs_quote] at hm ⊢
        rw [parseObj_quote, hm, Option.map_some']
  · intro s ind rest fuel hfuel
    rw [show dumpVal (.str s) ind ++ rest = '"' :: (escapeStr s ++ '"' :: rest) from by
      rw [dumpVal]; exact dumpStr_eq s rest]
    exact parseVal_str fuel s rest
  · intro ind rest fuel hfuel
    exact parseVal_null fuel rest
  · intro ind ind2 rest fuel hne _
    exact absurd rfl hne
  · intro name content rest2 ihc ihr ind ind2 rest fuel _ hfuel
    rw [itemsFuel] at hfuel
    obtain ⟨f, rfl⟩ : ∃ f, fuel = f + 3 := ⟨fuel - 3, by omega⟩
    rw [dumpItems_shape, skipWs_indent, skipWs_quote]
    rw [show (f + 3) = (f + 2) + 1 from rfl]
    rw [parseMembers_key (f + 2) _ name.data
      (':' :: ' ' :: (dumpVal content ind ++ sepText rest2 ind
        ('\n' :: (indentChars ind2 ++ '}' :: rest))))
      (parseStrBody_escapeStr name _)]
    rw [stringMk_data, skipWs_colon]
    rw [show (f + 2) = (f + 1) + 1 from rfl]
    rw [parseColon_val (f + 1) name _ content
      (sepText rest2 ind ('\n' :: (indentChars ind2 ++ '}' :: rest)))
      (by rw [skipWs_sp, skipWs_dumpVal]; exact ihc ind _ (f + 1) (by omega))]
    cases rest2 with
    | nil =>
        rw [sepText, skipWs_nl, skipWs_indent, skipWs_rbrace, parseSep_rbrace]
    | cons e2 es3 =>
        have hr := ihr ind ind2 rest f (by simp) (by omega)
        rw [sepText, skipWs_comma, parseSep_comma, skipWs_nl, hr, Option.map_some']

theorem two_le_dumpStr_length (k : String) : 2 ≤ (dumpStr k).length := by
  rw [dumpStr]
  simp

theorem pvFuel_le_length :
    ∀ (v : PyVal) (ind : Nat), pvFuel v ≤ (dumpVal v ind).length := by
  have H := pvFuel.induct
    (fun v => ∀ ind : Nat, pvFuel v ≤ (dumpVal v ind).length)
    (fun es => ∀ ind : Nat, itemsFuel es ≤ (dumpItems es ind).length)
  intro v
  apply H ?_ ?_ ?_ ?_ ?_ v
  · intro es ih ind
    cases es with
    | nil =>
        rw [pvFuel, itemsFuel, dumpVal]
        simp
    | cons e es2 =>
        obtain ⟨k0, v0⟩ := e
        have h1 := ih (ind + 1)
        rw [pvFuel, dumpVal]
        simp only [List.length_cons, List.length_append, indentChars,
          List.length_replicate]
        omega
  · intro s ind
    simp [pvFuel]
  · intro ind
    simp [pvFuel]
  · intro ind
    simp [itemsFuel]
  · intro name content rest2 ihc ihr ind
    have h1 := ihc ind
    have h3 := two_le_dumpStr_length name
    cases rest2 with
    | nil =>
        rw [itemsFuel, itemsFuel, dumpItems]
        simp only [List.length_cons, List.length_append, indentChars,
          List.length_replicate]
        omega
    | cons e2 es3 =>
        have h2 := ihr ind
        rw [itemsFuel, dumpItems]
        simp only [List.length_cons, List.length_append, indentChars,
          List.length_replicate]
        omega

theorem parseJson_dump (v : PyVal) : parseJson (json_dump v) = some v := by
  have h2 : parseVal (dumpVal v 0).length (dumpVal v 0) = some (v, []) := by
    have h := parseVal_dump v 0 [] (dumpVal v 0).length (pvFuel_le_length v 0)
    rwa [List.append_nil] at h
  have hd : (json_dump v).data = dumpVal v 0 := rfl
  rw [parseJson, hd, h2]
  rfl

/-- C9: re-parsing the serialized document of any built tree recovers exactly the
same value — the same mapping keys in the same (sorted) insertion order, the same
nesting, the sentinel strings, and the null markers, with a File (`null`) kept
distinct from an empty Directory (`{}`); every name string survives the encoding
losslessly. -/
theorem C9_round_trip (d : Dir) (sh : Bool) (md : Option Nat) (cd : Nat)
    (v : PyVal) (h : build_tree d sh md cd = .ok v) :
    parseJson (json_dump v) = some v :=
  parseJson_dump v

/-- Witness for C9 on the directory with file `a.txt` and subdirectory
`sub/b.txt`, listed out of order. -/
theorem C9_round_trip_witness :
    parseJson (json_dump (PyVal.dict
      [("a.txt", PyVal.none), ("sub", PyVal.dict [("b.txt", PyVal.none)])])) =
      some (PyVal.dict
        [("a.txt", PyVal.none), ("sub", PyVal.dict [("b.txt", PyVal.none)])]) :=
  C9_round_trip
    (Dir.ok [("sub", some (Dir.ok [("b.txt", Option.none)])), ("a.txt", Option.none)])
    false Option.none 0 _ (by rfl)

/-- C5: counterexample — the claim says an AccessDenied condition is serialized as
its sentinel label as a bare string value, but the builder encodes a permission
failure as the one-entry dictionary with the sentinel as a key and `None` as the
value, so the document shows a mapping there, not a string, and the two documents
differ. -/
theorem C5_counterexample :
    build_tree (Dir.ok [("locked", some Dir.permErr)]) false Option.none 0 =
      .ok (PyVal.dict [("locked", PyVal.dict [(accessDeniedLabel, PyVal.none)])]) ∧
    (∀ s : String,
      PyVal.dict [(accessDeniedLabel, PyVal.none)] ≠ PyVal.str s) ∧
    json_dump (PyVal.dict [("locked", PyVal.dict [(accessDeniedLabel, PyVal.none)])]) ≠
      json_dump (PyVal.dict [("locked", PyVal.str accessDeniedLabel)]) := by
  refine ⟨rfl, fun s h => PyVal.noConfusion h, ?_⟩
  decide

/-- C5 (amended): the serializer maps a Directory to a mapping from child name to
sub-document, a File to null, and a DepthLimitReached node to its sentinel label
as a bare string; an AccessDenied condition, however, becomes a one-entry mapping
whose key is the sentinel label and whose value is null. -/
theorem C5_serializer_amended :
    (∀ (sh : Bool) (cd : Nat),
        build_tree Dir.permErr sh Option.none cd =
          .ok (PyVal.dict [(accessDeniedLabel, PyVal.none)])) ∧
    json_dump (PyVal.dict [(accessDeniedLabel, PyVal.none)]) =
      "\x7b\n    \"🚫 Access Denied\": null\n\x7d" ∧
    json_dump PyVal.none = "null" ∧
    json_dump (PyVal.str maxDepthMsg) = "\"... (maximum depth reached)\"" ∧
    json_dump (PyVal.dict []) = "\x7b\x7d" :=
  ⟨fun sh cd => build_tree_permErr rfl, rfl, rfl, rfl, rfl⟩
